import Mathlib

/-!
Verification of the Mermaid-flowchart decision-guide compiler
(`mermaid_to_hypothesis_filtering.py` / `mermaid_to_clickthrough.py`).

The Python source is shallowly embedded: Python dicts whose keys matter for
membership tests become association lists (`alookup` / `aset`), dicts that are
only ever read and written at keys of the graph become total functions,
Python sets of strings become `Finset String`, and the regular expressions of
the source are implemented as deterministic/backtracking scanners with the
exact matching semantics of the patterns in the source.  Loops whose
termination is data-dependent (the DFS of `detect_cycle`, the fix-point loop
of `compute_leaf_sets`, the recursion of `build_node`) take an explicit fuel
argument; fuel sufficiency for the actual call sites is proved separately.
-/

namespace MermaidGuide

/-! ## Character classes and Python string helpers -/

/-- The whitespace characters of Python's `str.strip` / regex `\s`
(the ASCII ones, which are the only ones the inputs of this DSL use). -/
def isPySpace (c : Char) : Bool :=
  c = ' ' || c = '\t' || c = '\n' || c = '\r' || c = '\x0b' || c = '\x0c'

/-- The regex class `[A-Za-z0-9_]` (`\w` over ASCII). -/
def isWordChar (c : Char) : Bool :=
  (c.isUpper || c.isLower || c.isDigit) || c = '_'

/-- Python `str.strip()` on a character list. -/
def pyStripList (l : List Char) : List Char :=
  ((l.dropWhile isPySpace).reverse.dropWhile isPySpace).reverse

/-- Python `str.strip()`. -/
def pyStrip (s : String) : String := (pyStripList s.toList).asString

/-- Python `str.rstrip()`. -/
def pyRstrip (s : String) : String :=
  (s.toList.reverse.dropWhile isPySpace).reverse.asString

/-- Python `str.splitlines()` for the usual terminators `\n`, `\r`, `\r\n`. -/
def pySplitLinesAux : List Char → List Char → List String
  | [], acc => if acc = [] then [] else [acc.reverse.asString]
  | '\r' :: '\n' :: rest, acc => acc.reverse.asString :: pySplitLinesAux rest []
  | '\r' :: rest, acc => acc.reverse.asString :: pySplitLinesAux rest []
  | '\n' :: rest, acc => acc.reverse.asString :: pySplitLinesAux rest []
  | c :: rest, acc => pySplitLinesAux rest (c :: acc)

def pySplitLines (s : String) : List String := pySplitLinesAux s.toList []

/-- Python `x or y` on strings (`y` when `x` is empty). -/
def orS (a b : String) : String := if a = "" then b else a

/-- Python `s.startswith(pre)` (kernel-reducible prefix test). -/
def pyStartsWith (s pre : String) : Bool := pre.toList.isPrefixOf s.toList

/-! ## The image-tag regexes (`IMG_TAG_RE`, `SRC_RE`) -/

/-- Length of a match of `<img\b[^>]*>` (case-insensitive) at the head of
the list, if any. -/
def imgTagLen : List Char → Option Nat
  | '<' :: c1 :: c2 :: c3 :: rest =>
    if (c1.toLower = 'i' && c2.toLower = 'm' && c3.toLower = 'g')
        && (match rest with | [] => true | d :: _ => !isWordChar d) then
      match rest.findIdx? (fun c => c = '>') with
      | some i => some (4 + i + 1)
      | none => none
    else none
  | _ => none

/-- `re.sub(r"<img\b[^>]*>", "", html)`: scan left to right, removing
non-overlapping matches.  The fuel only bounds the recursion depth; every
step consumes at least one character, so `l.length` is always enough and
the fuel-exhausted branch is unreachable. -/
def stripImgFuel : Nat → List Char → List Char
  | 0, l => l
  | _, [] => []
  | fuel + 1, c :: rest =>
    match imgTagLen (c :: rest) with
    | some (n+1) => stripImgFuel fuel (rest.drop n)
    | _ => c :: stripImgFuel fuel rest

def stripImgAux (l : List Char) : List Char := stripImgFuel l.length l

/-- `strip_img_tags` of the source: remove image tags, then `.strip()`. -/
def strip_img_tags (s : String) : String :=
  (pyStripList (stripImgAux s.toList)).asString

/-- `IMG_TAG_RE.search`: the first image tag in the text, as a substring. -/
def extractFirstImgAux : List Char → Option (List Char)
  | [] => none
  | c :: rest =>
    match imgTagLen (c :: rest) with
    | some n => some ((c :: rest).take n)
    | none => extractFirstImgAux rest

/-- `extract_first_img_tag` of the source. -/
def extract_first_img_tag (s : String) : Option String :=
  (extractFirstImgAux s.toList).map List.asString

/-- A match of `src\s*=\s*(['"])(.*?)\1` anchored at the head of the list:
returns group 2. -/
def srcMatchAt : List Char → Option (List Char)
  | c0 :: c1 :: c2 :: rest =>
    if c0.toLower = 's' && c1.toLower = 'r' && c2.toLower = 'c' then
      match rest.dropWhile isPySpace with
      | '=' :: r2 =>
        match r2.dropWhile isPySpace with
        | q :: r4 =>
          if q = '\'' || q = '"' then
            match r4.findIdx? (fun c => c = q) with
            | some i => some (r4.take i)
            | none => none
          else none
        | [] => none
      | _ => none
    else none
  | _ => none

/-- `SRC_RE.search`: scan positions left to right. -/
def srcSearch : List Char → Option (List Char)
  | [] => none
  | c :: rest =>
    match srcMatchAt (c :: rest) with
    | some g => some g
    | none => srcSearch rest

/-- `extract_img_src` of the source: `m.group(2).strip()` or `""`. -/
def extract_img_src (s : String) : String :=
  match srcSearch s.toList with
  | some g => (pyStripList g).asString
  | none => ""

/-! ## `mmd_label_to_html`: strip, unescape, markdown-bold substitution -/

/-- Python `str.replace('\\"', '"')`. -/
def unescapeQuotes : List Char → List Char
  | '\\' :: '"' :: rest => '"' :: unescapeQuotes rest
  | c :: rest => c :: unescapeQuotes rest
  | [] => []

/-- The non-greedy part of `\*\*(.+?)\*\*`: the content up to the first
following `**` (the content collected so far is in `acc`), and the rest
after the closing `**`. -/
def findBoldCloseAux (acc : List Char) : List Char → Option (List Char × List Char)
  | c1 :: c2 :: rest =>
    if c1 = '*' && c2 = '*' then some (acc.reverse, rest)
    else findBoldCloseAux (c1 :: acc) (c2 :: rest)
  | _ => none

/-- `(.+?)` needs at least one character of content before the closing `**`. -/
def findBoldClose : List Char → Option (List Char × List Char)
  | [] => none
  | c :: rest => findBoldCloseAux [c] rest

/-- `re.sub(r"\*\*(.+?)\*\*", r"<strong>\1</strong>", txt)`: scan left to
right; at a `**` with a closing `**` further on, wrap the minimal non-empty
content; otherwise move on one character.  Every step consumes at least one
character, so `l.length` fuel is always enough. -/
def boldSubFuel : Nat → List Char → List Char
  | 0, l => l
  | _, [] => []
  | fuel + 1, '*' :: '*' :: rest =>
    (match findBoldClose rest with
     | some (content, rest') =>
       ("<strong>".toList ++ content ++ "</strong>".toList) ++ boldSubFuel fuel rest'
     | none => '*' :: boldSubFuel fuel ('*' :: rest))
  | fuel + 1, c :: rest => c :: boldSubFuel fuel rest

def boldSubAux (l : List Char) : List Char := boldSubFuel l.length l

/-- `mmd_label_to_html` of the source: strip, unescape `\"`, bold markdown
to `<strong>`. -/
def mmd_label_to_html (raw : String) : String :=
  let txt := pyStripList raw.toList
  let txt := unescapeQuotes txt
  (boldSubAux txt).asString

/-- Length of a match of `<br\s*/?>` (case-insensitive) at the head. -/
def brMatchLen (l : List Char) : Option Nat :=
  match l with
  | '<' :: b :: r :: rest =>
    if b.toLower = 'b' && r.toLower = 'r' then
      let k := (rest.takeWhile isPySpace).length
      match rest.drop k with
      | '/' :: '>' :: _ => some (3 + k + 2)
      | '>' :: _ => some (3 + k + 1)
      | _ => none
    else none
  | _ => none

/-- `re.sub(r"<br\s*/?>", " ", text)` (each step consumes a character, so
`l.length` fuel is always enough). -/
def brSubFuel : Nat → List Char → List Char
  | 0, l => l
  | _, [] => []
  | fuel + 1, c :: rest =>
    match brMatchLen (c :: rest) with
    | some (n+1) => ' ' :: brSubFuel fuel (rest.drop n)
    | _ => c :: brSubFuel fuel rest

def brSubAux (l : List Char) : List Char := brSubFuel l.length l

/-- Length of a match of `<[^>]+>` at the head. -/
def tagMatchLen (l : List Char) : Option Nat :=
  match l with
  | '<' :: rest =>
    match rest with
    | [] => none
    | d :: _ =>
      if d = '>' then none
      else
        match rest.findIdx? (fun c => c = '>') with
        | some i => some (1 + i + 1)
        | none => none
  | _ => none

/-- `re.sub(r"<[^>]+>", "", t)` (fuel as above). -/
def tagSubFuel : Nat → List Char → List Char
  | 0, l => l
  | _, [] => []
  | fuel + 1, c :: rest =>
    match tagMatchLen (c :: rest) with
    | some (n+1) => tagSubFuel fuel (rest.drop n)
    | _ => c :: tagSubFuel fuel rest

def tagSubAux (l : List Char) : List Char := tagSubFuel l.length l

/-- `re.sub(r"\s+", " ", t)`: collapse runs of whitespace to one space
(fuel as above). -/
def wsCollapseFuel : Nat → List Char → List Char
  | 0, l => l
  | _, [] => []
  | fuel + 1, c :: rest =>
    if isPySpace c then ' ' :: wsCollapseFuel fuel (rest.dropWhile isPySpace)
    else c :: wsCollapseFuel fuel rest

def wsCollapse (l : List Char) : List Char := wsCollapseFuel l.length l

/-- `strip_html_for_plain` of the source. -/
def strip_html_for_plain (text : String) : String :=
  let t := brSubAux text.toList
  let t := tagSubAux t
  let t := wsCollapse t
  (pyStripList t).asString

/-- `fallback_label` of the source: the identifier with `_` as spaces. -/
def fallback_label (node_id : String) : String :=
  (node_id.toList.map (fun c => if c = '_' then ' ' else c)).asString

/-- A match of `</h1>` (case-insensitive) at the head: the rest after it. -/
def h1CloseHere : List Char → Option (List Char)
  | c0 :: c1 :: a :: b :: c4 :: rest =>
    if c0 = '<' && c1 = '/' && a.toLower = 'h' && b = '1' && c4 = '>' then some rest
    else none
  | _ => none

/-- The closing `</h1>` searched for by the lazy `(.*?)</h1>`:
returns (content before it, rest after it). -/
def findH1Close (acc : List Char) : List Char → Option (List Char × List Char)
  | [] => none
  | c :: rest =>
    match h1CloseHere (c :: rest) with
    | some rest' => some (acc.reverse, rest')
    | none => findH1Close (c :: acc) rest

/-- Length of a match of `<h1[^>]*>` (case-insensitive) at the head. -/
def h1OpenLen : List Char → Option Nat
  | '<' :: a :: b :: rest =>
    if a.toLower = 'h' && b = '1' then
      match rest.findIdx? (fun c => c = '>') with
      | some i => some (3 + i + 1)
      | none => none
    else none
  | _ => none

/-- `H1_RE.search`: the group 1 of the first match of
`<h1[^>]*>(.*?)</h1>`. -/
def h1Search : List Char → Option (List Char)
  | [] => none
  | c :: rest =>
    match h1OpenLen (c :: rest) with
    | some n =>
      match findH1Close [] ((c :: rest).drop n) with
      | some (content, _) => some content
      | none => h1Search rest
    | none => h1Search rest

/-- A match of `</p>` (case-insensitive) at the head: the rest after it. -/
def pCloseHere : List Char → Option (List Char)
  | c0 :: c1 :: a :: c3 :: rest =>
    if c0 = '<' && c1 = '/' && a.toLower = 'p' && c3 = '>' then some rest else none
  | _ => none

/-- The closing `</p>` searched for by the lazy `(.*?)</p>`:
returns (content before, rest after). -/
def findPClose (acc : List Char) : List Char → Option (List Char × List Char)
  | [] => none
  | c :: rest =>
    match pCloseHere (c :: rest) with
    | some rest' => some (acc.reverse, rest')
    | none => findPClose (c :: acc) rest

/-- Length of a match of `<p[^>]*>` (case-insensitive) at the head. -/
def pOpenLen : List Char → Option Nat
  | '<' :: a :: rest =>
    if a.toLower = 'p' then
      match rest.findIdx? (fun c => c = '>') with
      | some i => some (2 + i + 1)
      | none => none
    else none
  | _ => none

/-- `P_RE.findall`: all non-overlapping matches of `<p[^>]*>(.*?)</p>`,
their group 1 contents in order (every step consumes at least one
character, so `l.length` fuel is always enough). -/
def pFindAllFuel : Nat → List Char → List (List Char)
  | 0, _ => []
  | _, [] => []
  | fuel + 1, c :: rest =>
    match pOpenLen (c :: rest) with
    | some n =>
      match findPClose [] ((c :: rest).drop n) with
      | some (content, rest') => content :: pFindAllFuel fuel rest'
      | none => pFindAllFuel fuel rest
    | none => pFindAllFuel fuel rest

def pFindAll (l : List Char) : List (List Char) := pFindAllFuel l.length l

/-! ## `parse_edge_label` -/

/-- The result record of `parse_edge_label` (the `Dict[str, str]` it
returns). -/
structure EdgeParts where
  titleHtml : String
  contextHtml : String
  plainLabel : String
  edgeImageTag : String
  edgeImageSrc : String
deriving DecidableEq

/-- `parse_edge_label` of the source. -/
def parse_edge_label (edge_html : String) (fallback_text : String) : EdgeParts :=
  let html := mmd_label_to_html edge_html
  let edge_img_tag := (extract_first_img_tag html).getD ""
  let edge_img_src := if edge_img_tag ≠ "" then extract_img_src edge_img_tag else ""
  let html_wo_img := strip_img_tags html
  if html_wo_img = "" then
    let plain := orS (strip_html_for_plain fallback_text) fallback_text
    ⟨plain, "", plain, edge_img_tag, edge_img_src⟩
  else
    let h1m := h1Search html_wo_img.toList
    let p_matches := pFindAll html_wo_img.toList
    let title_html :=
      match h1m with
      | some content => (pyStripList content).asString
      | none => pyStrip html_wo_img
    let context_html :=
      if p_matches ≠ [] then
        String.join (p_matches.map
          (fun p => "<p>" ++ (pyStripList p).asString ++ "</p>"))
      else ""
    let plain := orS (strip_html_for_plain title_html)
      (orS (strip_html_for_plain html_wo_img) fallback_text)
    ⟨title_html, context_html, plain, edge_img_tag, edge_img_src⟩

/-! ## The `Graph` class

Python dicts become association lists: `alookup` is `dict.get`, `aset` is
item assignment (update in place when the key exists, else append, which is
exactly CPython's insertion-order behaviour). -/

def alookup {κ α : Type} [DecidableEq κ] : List (κ × α) → κ → Option α
  | [], _ => none
  | (k, v) :: rest, k' => if k' = k then some v else alookup rest k'

def aset {κ α : Type} [DecidableEq κ] : List (κ × α) → κ → α → List (κ × α)
  | [], k, v => [(k, v)]
  | (k0, v0) :: rest, k, v =>
    if k = k0 then (k0, v) :: rest else (k0, v0) :: aset rest k v

def acontains {κ α : Type} [DecidableEq κ] (l : List (κ × α)) (k : κ) : Bool :=
  (alookup l k).isSome

/-- The `Graph` class of the source. -/
structure Graph where
  node_html : List (String × String)
  children : List (String × List String)
  edge_label : List ((String × String) × String)
  indegree : List (String × Nat)
  nodes_in_order : List String
deriving DecidableEq

def emptyGraph : Graph := ⟨[], [], [], [], []⟩

/-- `Graph.ensure_node`. -/
def ensure_node (g : Graph) (nid : String) : Graph :=
  let children := if acontains g.children nid then g.children else aset g.children nid []
  let indegree := if acontains g.indegree nid then g.indegree else aset g.indegree nid 0
  let node_html :=
    if acontains g.node_html nid then g.node_html
    else aset g.node_html nid (fallback_label nid)
  let nodes :=
    if nid ∈ g.nodes_in_order then g.nodes_in_order else g.nodes_in_order ++ [nid]
  ⟨node_html, children, g.edge_label, indegree, nodes⟩

/-- `Graph.add_node_label`. -/
def add_node_label (g : Graph) (nid : String) (raw_label : String) : Graph :=
  let g := ensure_node g nid
  ⟨aset g.node_html nid (mmd_label_to_html raw_label), g.children, g.edge_label,
    g.indegree, g.nodes_in_order⟩

/-- `Graph.add_edge`. -/
def add_edge (g : Graph) (src dst : String) (lbl : Option String) : Graph :=
  let g := ensure_node (ensure_node g src) dst
  let children := aset g.children src ((alookup g.children src).getD [] ++ [dst])
  let indegree := aset g.indegree dst ((alookup g.indegree dst).getD 0 + 1)
  let edge_label :=
    match lbl with
    | none => g.edge_label
    | some l =>
      let cl := pyStripList l.toList
      let cl :=
        if 2 ≤ cl.length ∧ cl.head? = some '"' ∧ cl.getLast? = some '"' then
          (cl.drop 1).dropLast
        else cl
      aset g.edge_label (src, dst) (mmd_label_to_html cl.asString)
  ⟨g.node_html, children, edge_label, indegree, g.nodes_in_order⟩

/-- `g.children.get(n, [])`. -/
def childrenD (g : Graph) (n : String) : List String := (alookup g.children n).getD []

/-- `g.node_html.get(n, fallback_label(n))`. -/
def nodeHtmlD (g : Graph) (n : String) : String :=
  (alookup g.node_html n).getD (fallback_label n)

/-- `g.indegree.get(n, 0)`. -/
def indegreeD (g : Graph) (n : String) : Nat := (alookup g.indegree n).getD 0

/-- `g.edge_label.get((src, dst), "")` (via lookup with default). -/
def edgeLabelD (g : Graph) (src dst : String) : String :=
  (alookup g.edge_label (src, dst)).getD ""

/-- `top_nodes` of the source. -/
def top_nodes (g : Graph) : List String :=
  g.nodes_in_order.filter (fun n => indegreeD g n = 0)

/-- `find_leaves` of the source. -/
def find_leaves (g : Graph) : List String :=
  g.nodes_in_order.filter (fun n => childrenD g n = [])

/-! ## The line regexes `NODE_RE` and `EDGE_RE` -/

/-- The tail `\s*\]\s*$` of `NODE_RE` after the closing quote. -/
def nodeTail (l : List Char) : Bool :=
  match l.dropWhile isPySpace with
  | ']' :: rest => rest.dropWhile isPySpace = []
  | _ => false

/-- The lazy `([\s\S]*?)` of `NODE_RE`: content up to the first `"` whose
tail matches `\s*\]\s*$`. -/
def findQuoteEnd (acc : List Char) : List Char → Option (List Char)
  | [] => none
  | c :: rest =>
    if c = '"' && nodeTail rest then some acc.reverse
    else findQuoteEnd (c :: acc) rest

/-- `NODE_RE.match(line)`: `^\s*([A-Za-z0-9_]+)\s*\[\s*"([\s\S]*?)"\s*\]\s*$`,
returning (identifier, raw label). -/
def nodeMatch (line : String) : Option (String × String) :=
  let l1 := line.toList.dropWhile isPySpace
  let ident := l1.takeWhile isWordChar
  if ident = [] then none
  else
    match (l1.drop ident.length).dropWhile isPySpace with
    | '[' :: r2 =>
      match r2.dropWhile isPySpace with
      | '"' :: r4 =>
        match findQuoteEnd [] r4 with
        | some content => some (ident.asString, content.asString)
        | none => none
      | _ => none
    | _ => none

/-- The tail `([A-Za-z0-9_]+)\s*$` of `EDGE_RE`. -/
def edgeTail (l : List Char) : Option String :=
  let ident := l.takeWhile isWordChar
  if ident = [] then none
  else if (l.drop ident.length).dropWhile isPySpace = [] then some ident.asString
  else none

/-- The label group `((?:"[^"]*"|[^|])*)` of `EDGE_RE` followed by
`\|\s*([A-Za-z0-9_]+)\s*$`, with the regex engine's backtracking order:
iterate the star (complete quoted chunk first, then a single non-`|`
character), and stop iterating only when both fail or the continuation
after them fails.  Returns (label content, destination identifier). -/
def edgeLabFuel : Nat → List Char → Option (List Char × String)
  | 0, _ => none
  | _, [] => none
  | fuel + 1, c :: rest =>
    if c = '|' then
      match edgeTail (rest.dropWhile isPySpace) with
      | some dst => some ([], dst)
      | none => none
    else if c = '"' then
      match rest.findIdx? (fun x => x = '"') with
      | some i =>
        (match edgeLabFuel fuel (rest.drop (i+1)) with
         | some (lab, dst) => some ('"' :: (rest.take i ++ '"' :: lab), dst)
         | none =>
           match edgeLabFuel fuel rest with
           | some (lab, dst) => some (c :: lab, dst)
           | none => none)
      | none =>
        match edgeLabFuel fuel rest with
        | some (lab, dst) => some (c :: lab, dst)
        | none => none
    else
      match edgeLabFuel fuel rest with
      | some (lab, dst) => some (c :: lab, dst)
      | none => none

/-- Every recursion step consumes at least one character, so `l.length + 1`
fuel is always enough (the fuel cannot reach `0` with a non-empty rest). -/
def edgeLab (l : List Char) : Option (List Char × String) :=
  edgeLabFuel (l.length + 1) l

/-- `EDGE_RE.match(line)`:
`^\s*([A-Za-z0-9_]+)\s*-->\s*(?:\|((?:"[^"]*"|[^|])*)\|\s*)?([A-Za-z0-9_]+)\s*$`,
returning (source, optional label group, destination). -/
def edgeMatch (line : String) : Option (String × Option String × String) :=
  let l1 := line.toList.dropWhile isPySpace
  let src := l1.takeWhile isWordChar
  if src = [] then none
  else
    match (l1.drop src.length).dropWhile isPySpace with
    | '-' :: '-' :: '>' :: r2 =>
      match r2.dropWhile isPySpace with
      | '|' :: r4 =>
        match edgeLab r4 with
        | some (lab, dst) => some (src.asString, some lab.asString, dst)
        | none => none
      | r3 =>
        match edgeTail r3 with
        | some dst => some (src.asString, none, dst)
        | none => none
    | _ => none

/-! ## `parse_mermaid` -/

/-- One iteration of the parser's line loop. -/
def processLine (g : Graph) (raw_line : String) : Graph :=
  let line := pyRstrip raw_line
  let s := pyStrip line
  if s = "" then g
  else if pyStartsWith s "%%" then g
  else if pyStartsWith s "flowchart" then g
  else
    match nodeMatch line with
    | some (nid, raw) => add_node_label g nid raw
    | none =>
      match edgeMatch line with
      | some (src, lbl, dst) => add_edge g src dst lbl
      | none => g

/-- `parse_mermaid` of the source. -/
def parse_mermaid (text : String) : Graph :=
  (pySplitLines text).foldl processLine emptyGraph

/-! ## `detect_cycle`

The `color` and `parent` dicts are keyed on the graph's nodes and only ever
read there, so they are modelled as total functions.  Colors are the
source's `WHITE, GRAY, BLACK = 0, 1, 2`.  The recursion of `dfs` is bounded
in Python by the number of white nodes; here it takes fuel, and fuel
sufficiency for the call with `|nodes| + 1` is proved below. -/

structure DfsState where
  color : String → Nat
  parent : String → Option String

def setColor (s : DfsState) (n : String) (c : Nat) : DfsState :=
  ⟨fun m => if m = n then c else s.color m, s.parent⟩

def setParent (s : DfsState) (n : String) (p : String) : DfsState :=
  ⟨s.color, fun m => if m = n then some p else s.parent m⟩

/-- The cycle-reconstruction loop of `dfs`: `cycle = [v]; cur = u; while cur
is not None and cur != v: cycle.append(cur); cur = parent[cur];
cycle.append(v); cycle.reverse()`.  `acc` holds `cycle` so far; `none` means
the fuel ran out (never happens from a reachable state). -/
def walkCycle (parent : String → Option String) :
    Nat → Option String → String → List String → Option (List String)
  | 0, _, _, _ => none
  | _ + 1, none, v, acc => some ((acc ++ [v]).reverse)
  | fuel + 1, some c, v, acc =>
    if c = v then some ((acc ++ [v]).reverse)
    else walkCycle parent fuel (parent c) v (acc ++ [c])

/-- A pending piece of work of the DFS: either the body of `dfs(u)` (mark
gray, walk children, mark black), or the remainder of the `for v in
g.children` loop of `dfs(u)`. -/
inductive DfsCall where
  | visit (u : String) (s : DfsState)
  | kids (u : String) (rest : List String) (s : DfsState)

/-- The recursion of `dfs`, structural on a fuel that pays one unit per call
(visiting a node or handling one child).  `none` = out of fuel; fuel
sufficiency for the amount `detect_cycle` passes is proved below. -/
def dfsRun (g : Graph) : Nat → DfsCall → Option (DfsState × Option (List String))
  | 0, _ => none
  | fuel + 1, .visit u s =>
    (match dfsRun g fuel (.kids u (childrenD g u) (setColor s u 1)) with
     | none => none
     | some (s2, some cyc) => some (s2, some cyc)
     | some (s2, none) => some (setColor s2 u 2, none))
  | _ + 1, .kids _ [] s => some (s, none)
  | fuel + 1, .kids u (v :: rest) s =>
    if s.color v = 0 then
      match dfsRun g fuel (.visit v (setParent s v u)) with
      | none => none
      | some (s2, some cyc) => some (s2, some cyc)
      | some (s2, none) => dfsRun g fuel (.kids u rest s2)
    else if s.color v = 1 then
      match walkCycle s.parent (g.nodes_in_order.length + 1) (some u) v [v] with
      | some cyc => some (s, some cyc)
      | none => none
    else
      dfsRun g fuel (.kids u rest s)

/-- The fuel `detect_cycle` hands each top-level `dfs` call: enough for
every white node to pay for its visit and its whole child loop. -/
def dfsFuel (g : Graph) : Nat :=
  (g.nodes_in_order.length + 1) *
    ((g.children.map (fun p => p.2.length)).sum + 2) + 1

/-- The top-level `for n in g.nodes_in_order` loop of `detect_cycle`.  The
outer `none` means some inner call ran out of fuel. -/
def detectLoop (g : Graph) : List String → DfsState → Option (Option (List String))
  | [], _ => some none
  | n :: rest, s =>
    if s.color n = 0 then
      match dfsRun g (dfsFuel g) (.visit n s) with
      | none => none
      | some (_, some cyc) => some (some cyc)
      | some (s', none) => detectLoop g rest s'
    else detectLoop g rest s

def initDfsState : DfsState := ⟨fun _ => 0, fun _ => none⟩

/-- `detect_cycle` of the source. -/
def detect_cycle (g : Graph) : Option (List String) :=
  match detectLoop g g.nodes_in_order initDfsState with
  | some r => r
  | none => none

/-! ## Specification-side notions about graphs -/

/-- `Edge g u v`: the graph has a directed edge from `u` to `v`. -/
def Edge (g : Graph) (u v : String) : Prop := v ∈ childrenD g u

instance (g : Graph) (u v : String) : Decidable (Edge g u v) := by
  unfold Edge; infer_instance

/-- A cycle path: length at least two, first = last, and every consecutive
pair a directed edge. -/
def IsCyclePath (g : Graph) (p : List String) : Prop :=
  2 ≤ p.length ∧ p.head? = p.getLast? ∧ List.Chain' (Edge g) p

/-- The graph has a directed cycle. -/
def HasCycle (g : Graph) : Prop := ∃ p, IsCyclePath g p

/-- A strict topological measure: every edge decreases `f`. -/
def IsTopo (g : Graph) (f : String → Nat) : Prop :=
  ∀ u v, Edge g u v → f v < f u

/-- Total number of occurrences of `n` across all child lists. -/
def countOcc (g : Graph) (n : String) : Nat :=
  (g.children.map (fun p => p.2.count n)).sum

/-- Total length of all child lists (used only for fuel bounds). -/
def CLen (g : Graph) : Nat := (g.children.map (fun p => p.2.length)).sum

/-- Number of white nodes of the graph in a DFS state. -/
def whiteCount (g : Graph) (s : DfsState) : Nat :=
  (g.nodes_in_order.filter (fun n => s.color n = 0)).length

/-- The gray nodes form exactly the current DFS stack `D` (top first):
each one's parent pointer is the next one down, along a graph edge. -/
def GrayStack (g : Graph) (s : DfsState) (D : List String) : Prop :=
  (∀ n, s.color n = 1 ↔ n ∈ D) ∧ D.Nodup ∧
  (∀ n ∈ D, n ∈ g.nodes_in_order) ∧
  List.Chain' (fun a b => s.parent a = some b ∧ Edge g b a) D

/-- The black nodes form exactly the finish-ordered list `F` (earliest
finisher first): every black node's children are black and finished
strictly earlier. -/
def FinishInv (g : Graph) (s : DfsState) (F : List String) : Prop :=
  (∀ n, s.color n = 2 ↔ n ∈ F) ∧ F.Nodup ∧
  (∀ n ∈ F, n ∈ g.nodes_in_order) ∧
  (∀ n ∈ F, ∀ v, Edge g n v → v ∈ F ∧ F.indexOf v < F.indexOf n)

/-- Precondition of `dfsRun (.visit u s)`: the ambient invariants, `u` white
with its parent pointer already aimed at the top of the stack. -/
def VisitPre (g : Graph) (u : String) (s : DfsState) (D F : List String) : Prop :=
  GrayStack g s D ∧ FinishInv g s F ∧
  (∀ n, n ≠ u → s.color n = 0 → s.parent n = none) ∧
  (∀ n, s.color n ≤ 2) ∧
  s.color u = 0 ∧ u ∈ g.nodes_in_order ∧
  s.parent u = D.head? ∧ (∀ w, D.head? = some w → Edge g w u)

/-- Precondition of `dfsRun (.kids u rest s)`: `u` is the top of the gray
stack and `rest` is a suffix of its child list. -/
def KidsPre (g : Graph) (u : String) (rest : List String) (s : DfsState)
    (D F : List String) : Prop :=
  GrayStack g s (u :: D) ∧ FinishInv g s F ∧
  (∀ n, s.color n = 0 → s.parent n = none) ∧
  (∀ n, s.color n ≤ 2) ∧
  u ∈ g.nodes_in_order ∧
  (∀ v ∈ rest, v ∈ childrenD g u)

/-- What a successful no-cycle sub-run guarantees, relative to its entry
state `s` and ambient gray stack `D`. -/
def DfsPost (g : Graph) (s s' : DfsState) (D : List String) : Prop :=
  GrayStack g s' D ∧ (∃ F', FinishInv g s' F') ∧
  (∀ n, s'.color n = 0 → s.color n = 0) ∧
  (∀ n, s.color n = 2 → s'.color n = 2) ∧
  (∀ n, s'.color n = 0 → s'.parent n = none) ∧
  (∀ n, s'.color n ≤ 2) ∧
  (∀ n, s.color n ≠ 0 → s'.parent n = s.parent n)

/-- The state maintained between the iterations of the outer
`for n in nodes_in_order` loop of `detect_cycle`: no gray node, the black
nodes forming a finish-ordered list, whites untouched. -/
def OuterInv (g : Graph) (s : DfsState) : Prop :=
  GrayStack g s [] ∧ (∃ F, FinishInv g s F) ∧
  (∀ n, s.color n = 0 → s.parent n = none) ∧
  (∀ n, s.color n ≤ 2)

/-- The bookkeeping invariant of `Graph`: no duplicate node, the key lists
of the three per-node dicts are exactly `nodes_in_order`, every child is a
node, and `indegree[n]` counts the occurrences of `n` in child lists. -/
def GraphWF (g : Graph) : Prop :=
  g.nodes_in_order.Nodup ∧
  g.children.map Prod.fst = g.nodes_in_order ∧
  g.indegree.map Prod.fst = g.nodes_in_order ∧
  g.node_html.map Prod.fst = g.nodes_in_order ∧
  (∀ p ∈ g.children, ∀ c ∈ p.2, c ∈ g.nodes_in_order) ∧
  (∀ n ∈ g.nodes_in_order, alookup g.indegree n = some (countOcc g n))

instance (g : Graph) : Decidable (GraphWF g) := by
  unfold GraphWF; infer_instance

/-- A node the graph has fully registered (what `ensure_node` guarantees). -/
def Registered (g : Graph) (nid : String) : Prop :=
  acontains g.children nid ∧ acontains g.indegree nid ∧
  acontains g.node_html nid ∧ nid ∈ g.nodes_in_order

instance (g : Graph) (nid : String) : Decidable (Registered g nid) := by
  unfold Registered; infer_instance

/-- The three mutating operations of the `Graph` class. -/
inductive GraphOp where
  | ensure (nid : String)
  | label (nid raw : String)
  | edge (src dst : String) (lbl : Option String)

def applyOp (g : Graph) : GraphOp → Graph
  | .ensure nid => ensure_node g nid
  | .label nid raw => add_node_label g nid raw
  | .edge s d l => add_edge g s d l

def applyOps (ops : List GraphOp) : Graph := ops.foldl applyOp emptyGraph

/-! ## The click-through tree compiler (`build_node` / `build_tree`)

The nested dicts the Python builds become a pair of mutually inductive
types; a key that may be absent (`next`, `resultHtml`, `resultText`)
becomes an `Option` field. -/

mutual

inductive TreeNode : Type where
  | mk (nodeId questionHtml questionText : String) (options : List TreeOpt)

inductive TreeOpt : Type where
  | mk (label titleHtml contextHtml nextNodeId imageTag imageSrc : String)
      (next : Option TreeNode) (resultHtml resultText : Option String)

end

def TreeNode.nodeId : TreeNode → String | .mk x _ _ _ => x
def TreeNode.questionHtml : TreeNode → String | .mk _ x _ _ => x
def TreeNode.questionText : TreeNode → String | .mk _ _ x _ => x
def TreeNode.options : TreeNode → List TreeOpt | .mk _ _ _ x => x
def TreeOpt.label : TreeOpt → String | .mk x _ _ _ _ _ _ _ _ => x
def TreeOpt.titleHtml : TreeOpt → String | .mk _ x _ _ _ _ _ _ _ => x
def TreeOpt.contextHtml : TreeOpt → String | .mk _ _ x _ _ _ _ _ _ => x
def TreeOpt.nextNodeId : TreeOpt → String | .mk _ _ _ x _ _ _ _ _ => x
def TreeOpt.imageTag : TreeOpt → String | .mk _ _ _ _ x _ _ _ _ => x
def TreeOpt.imageSrc : TreeOpt → String | .mk _ _ _ _ _ x _ _ _ => x
def TreeOpt.next : TreeOpt → Option TreeNode | .mk _ _ _ _ _ _ x _ _ => x
def TreeOpt.resultHtml : TreeOpt → Option String | .mk _ _ _ _ _ _ _ x _ => x
def TreeOpt.resultText : TreeOpt → Option String | .mk _ _ _ _ _ _ _ _ x => x

/-- `option_label` of the source. -/
def option_label (g : Graph) (src dst : String) : String :=
  let edge_html := edgeLabelD g src dst
  if edge_html ≠ "" then (parse_edge_label edge_html (fallback_label dst)).plainLabel
  else orS (strip_html_for_plain (nodeHtmlD g dst)) (fallback_label dst)

/-- A pending piece of work of `build_node`: the body for one node, or the
remainder of its `for child in kids` loop. -/
inductive BuildCall where
  | node (node_id : String)
  | opts (node_id : String) (kids : List String)

/-- The recursion of `build_node`, structural on a fuel that pays one unit
per call; `none` = out of fuel (proved impossible below for the fuel
`build_tree` passes on an acyclic graph). -/
def buildRun (g : Graph) : Nat → BuildCall → Option (TreeNode ⊕ List TreeOpt)
  | 0, _ => none
  | fuel + 1, .node node_id =>
    (match buildRun g fuel (.opts node_id (childrenD g node_id)) with
     | some (.inr opts) =>
       some (.inl (.mk node_id (nodeHtmlD g node_id)
         (strip_html_for_plain (nodeHtmlD g node_id)) opts))
     | _ => none)
  | _ + 1, .opts _ [] => some (.inr [])
  | fuel + 1, .opts node_id (child :: rest) =>
    let child_kids := childrenD g child
    let child_html := nodeHtmlD g child
    let raw_edge_html := edgeLabelD g node_id child
    let edge_parts := parse_edge_label raw_edge_html (strip_html_for_plain child_html)
    let node_img_tag := (extract_first_img_tag child_html).getD ""
    let node_img_src := if node_img_tag ≠ "" then extract_img_src node_img_tag else ""
    let final_img_tag := orS edge_parts.edgeImageTag node_img_tag
    let final_img_src := orS edge_parts.edgeImageSrc node_img_src
    let lab := orS edge_parts.plainLabel (option_label g node_id child)
    let title := orS edge_parts.titleHtml (option_label g node_id child)
    let context := orS edge_parts.contextHtml ""
    if child_kids ≠ [] then
      match buildRun g fuel (.node child), buildRun g fuel (.opts node_id rest) with
      | some (.inl sub), some (.inr opts) =>
        some (.inr (.mk lab title context child final_img_tag final_img_src
          (some sub) none none :: opts))
      | _, _ => none
    else
      match buildRun g fuel (.opts node_id rest) with
      | some (.inr opts) =>
        some (.inr (.mk lab title context child final_img_tag final_img_src
          none (some child_html) (some (strip_html_for_plain child_html)) :: opts))
      | _ => none

/-- `build_node` of the source; `none` = out of fuel. -/
def buildNode (g : Graph) (fuel : Nat) (node_id : String) : Option TreeNode :=
  match buildRun g fuel (.node node_id) with
  | some (.inl t) => some t
  | _ => none

/-- The fuel `build_tree` hands the recursion: one visit plus one whole
child loop per node along any path, which an acyclic graph bounds. -/
def buildFuel (g : Graph) : Nat :=
  (g.nodes_in_order.length + 1) *
    ((g.children.map (fun p => p.2.length)).sum + 2) + 1

/-- The loop of `build_tree` that builds one synthetic option per root. -/
def synthOpts (g : Graph) (fuel : Nat) : List String → Option (List TreeOpt)
  | [] => some []
  | r :: rest =>
    let r_html := nodeHtmlD g r
    let r_img_tag := (extract_first_img_tag r_html).getD ""
    let r_img_src := if r_img_tag ≠ "" then extract_img_src r_img_tag else ""
    let label_plain := orS (strip_html_for_plain r_html) (fallback_label r)
    match buildNode g fuel r, synthOpts g fuel rest with
    | some sub, some opts =>
      some (.mk label_plain label_plain "" r r_img_tag r_img_src
        (some sub) none none :: opts)
    | _, _ => none

/-- `build_tree` of the source; `none` covers both the no-root
`ValueError` and fuel exhaustion (the latter never happens on a validated
acyclic graph, as proved below). -/
def build_tree (g : Graph) : Option TreeNode :=
  let roots := top_nodes g
  let fuel := buildFuel g
  match roots with
  | [] => none
  | [r] => buildNode g fuel r
  | _ =>
    match synthOpts g fuel roots with
    | some opts =>
      some (.mk "__synthetic_start__" "Where do you want to start?"
        "Where do you want to start?" opts)
    | none => none

/-- The option `build_node` emits for a childless child (carrying the
terminal result); definitionally the value built inside `buildRun`. -/
def resultOpt (g : Graph) (node_id child : String) : TreeOpt :=
  let child_html := nodeHtmlD g child
  let edge_parts := parse_edge_label (edgeLabelD g node_id child)
    (strip_html_for_plain child_html)
  let node_img_tag := (extract_first_img_tag child_html).getD ""
  let node_img_src := if node_img_tag ≠ "" then extract_img_src node_img_tag
    else ""
  .mk (orS edge_parts.plainLabel (option_label g node_id child))
      (orS edge_parts.titleHtml (option_label g node_id child))
      (orS edge_parts.contextHtml "") child
      (orS edge_parts.edgeImageTag node_img_tag)
      (orS edge_parts.edgeImageSrc node_img_src)
      none (some child_html) (some (strip_html_for_plain child_html))

/-- The option `build_node` emits for a child that has children (carrying
the nested continuation `sub`). -/
def branchOpt (g : Graph) (node_id child : String) (sub : TreeNode) : TreeOpt :=
  let child_html := nodeHtmlD g child
  let edge_parts := parse_edge_label (edgeLabelD g node_id child)
    (strip_html_for_plain child_html)
  let node_img_tag := (extract_first_img_tag child_html).getD ""
  let node_img_src := if node_img_tag ≠ "" then extract_img_src node_img_tag
    else ""
  .mk (orS edge_parts.plainLabel (option_label g node_id child))
      (orS edge_parts.titleHtml (option_label g node_id child))
      (orS edge_parts.contextHtml "") child
      (orS edge_parts.edgeImageTag node_img_tag)
      (orS edge_parts.edgeImageSrc node_img_src)
      (some sub) none none

/-- The synthetic option `build_tree` emits for one root `r` of a
multi-root graph. -/
def rootOpt (g : Graph) (r : String) (sub : TreeNode) : TreeOpt :=
  let r_html := nodeHtmlD g r
  let r_img_tag := (extract_first_img_tag r_html).getD ""
  let r_img_src := if r_img_tag ≠ "" then extract_img_src r_img_tag else ""
  .mk (orS (strip_html_for_plain r_html) (fallback_label r))
      (orS (strip_html_for_plain r_html) (fallback_label r)) "" r
      r_img_tag r_img_src (some sub) none none

/-! ## Tree observations used by the stated properties -/

mutual

/-- How many terminal results for leaf `l` a compiled node holds. -/
def countNode (l : String) : TreeNode → Nat
  | .mk _ _ _ opts => countOptsList l opts

def countOptsList (l : String) : List TreeOpt → Nat
  | [] => 0
  | o :: rest => countOpt l o + countOptsList l rest

def countOpt (l : String) : TreeOpt → Nat
  | .mk _ _ _ nid _ _ nxt rH _ =>
    (if rH.isSome ∧ nid = l then 1 else 0) +
    (match nxt with | some t => countNode l t | none => 0)

end

mutual

/-- Every option of the tree carries exactly one of a nested continuation
and a terminal result. -/
def validNode : TreeNode → Bool
  | .mk _ _ _ opts => validOptsList opts

def validOptsList : List TreeOpt → Bool
  | [] => true
  | o :: rest => validOpt o && validOptsList rest

def validOpt : TreeOpt → Bool
  | .mk _ _ _ _ _ _ nxt rH rT =>
    ((nxt.isSome && rH.isNone && rT.isNone) ||
     (nxt.isNone && rH.isSome && rT.isSome)) &&
    (match nxt with | some t => validNode t | none => true)

end

/-- Number of directed paths from `n` to the node `l` that end at a
childless node (so, for a leaf `l`, the number of `n`-to-`l` paths; the
empty path counts when `n = l` is itself childless). -/
def nPaths (g : Graph) : Nat → String → String → Nat
  | 0, _, _ => 0
  | fuel + 1, n, l =>
    if childrenD g n = [] then (if n = l then 1 else 0)
    else ((childrenD g n).map (fun c => nPaths g fuel c l)).sum

/-- Number of `r`-to-`l` paths that traverse at least one edge. -/
def nEdgePaths (g : Graph) (fuel : Nat) (r l : String) : Nat :=
  if childrenD g r = [] then 0
  else ((childrenD g r).map (fun c => nPaths g fuel c l)).sum

/-! ## The hypothesis-filtering model compiler

Python `set`s of node ids become `Finset String`; `sorted(list(s))` becomes
`Finset.sort` with the lexicographic order on strings. -/

/-- The `Option` dataclass of the source. -/
structure HOption where
  option_id : String
  src : String
  dst : String
  title_html : String
  context_html : String
  plain_label : String
  image_src : String
deriving DecidableEq

/-- The `Question` dataclass of the source. -/
structure HQuestion where
  node_id : String
  question_html : String
  question_text : String
  options : List HOption
deriving DecidableEq

/-- The `for child in kids` loop of `build_questions`. -/
def buildQOptions (g : Graph) (nid : String) : List String → List HOption
  | [] => []
  | child :: rest =>
    let child_html := nodeHtmlD g child
    let raw_edge_html := edgeLabelD g nid child
    let edge_parts := parse_edge_label raw_edge_html (strip_html_for_plain child_html)
    let edge_img_src := orS edge_parts.edgeImageSrc ""
    let node_img_tag := (extract_first_img_tag child_html).getD ""
    let node_img_src := if node_img_tag ≠ "" then extract_img_src node_img_tag else ""
    let final_img_src := orS edge_img_src node_img_src
    { option_id := nid ++ "__TO__" ++ child, src := nid, dst := child,
      title_html := orS edge_parts.titleHtml
        (orS (strip_html_for_plain child_html) (fallback_label child)),
      context_html := orS edge_parts.contextHtml "",
      plain_label := orS edge_parts.plainLabel
        (orS (strip_html_for_plain child_html) (fallback_label child)),
      image_src := final_img_src } :: buildQOptions g nid rest

/-- `build_questions` of the source: the insertion-ordered dict
`node_id -> Question` over the nodes that have children. -/
def buildQuestionsAux (g : Graph) : List String → List (String × HQuestion)
  | [] => []
  | nid :: rest =>
    if childrenD g nid = [] then buildQuestionsAux g rest
    else
      let q_html := nodeHtmlD g nid
      (nid,
        { node_id := nid, question_html := q_html,
          question_text := orS (strip_html_for_plain q_html) (fallback_label nid),
          options := buildQOptions g nid (childrenD g nid) }) :: buildQuestionsAux g rest

def build_questions (g : Graph) : List (String × HQuestion) :=
  buildQuestionsAux g g.nodes_in_order

/-- The `while stack` loop of `compute_depths`; the list's head is the top
of the Python stack (`append`/`pop` work at the list's end, so pushed
children are reversed).  The Python loop always terminates (each node's
stored depth strictly decreases on every write and is bounded); the fuel
here is a generous cap that only exists to make the model total. -/
def computeDepthsLoop (g : Graph) : Nat → List (String × Nat) → (String → Nat) → (String → Nat)
  | 0, _, depth => depth
  | _ + 1, [], depth => depth
  | fuel + 1, (nid, d) :: stack, depth =>
    if depth nid ≤ d then computeDepthsLoop g fuel stack depth
    else
      computeDepthsLoop g fuel
        (((childrenD g nid).map (fun c => (c, d + 1))).reverse ++ stack)
        (fun m => if m = nid then d else depth m)

/-- `compute_depths` of the source (`10**9` is the "unvisited" marker). -/
def compute_depths (g : Graph) (roots : List String) : String → Nat :=
  let big : Nat := 10 ^ 9
  let fuel := (g.nodes_in_order.length + 2) * (g.nodes_in_order.length + 2) *
    ((g.children.map (fun p => p.2.length)).sum + 2)
  let depth := computeDepthsLoop g fuel ((roots.map (fun r => (r, 0))).reverse)
    (fun _ => big)
  fun n => if n ∈ g.nodes_in_order ∧ depth n = big then 0 else depth n

/-- `union |= leaf_set.get(c, set())` over the children. -/
def leafUnion (S : String → Finset String) (kids : List String) : Finset String :=
  kids.foldl (fun acc c => acc ∪ S c) ∅

/-- One full pass of the fix-point loop of `compute_leaf_sets`, over the
given node list (the source passes `nodes_in_order` reversed): a node with
children whose children's union is non-empty and differs from its current
set is updated in place, setting the changed flag. -/
def leafPassAux (g : Graph) (S : String → Finset String) (changed : Bool) :
    List String → (String → Finset String) × Bool
  | [] => (S, changed)
  | n :: rest =>
    if childrenD g n = [] then leafPassAux g S changed rest
    else
      let u := leafUnion S (childrenD g n)
      if u ≠ ∅ ∧ u ≠ S n then
        leafPassAux g (fun m => if m = n then u else S m) true rest
      else leafPassAux g S changed rest

/-- The `while changed` loop; `none` = out of fuel. -/
def leafLoop (g : Graph) : Nat → (String → Finset String) → Option (String → Finset String)
  | 0, _ => none
  | fuel + 1, S =>
    match leafPassAux g S false g.nodes_in_order.reverse with
    | (S', true) => leafLoop g fuel S'
    | (S', false) => some S'

/-- `compute_leaf_sets` of the source.  A leaf id outside the node set would
raise a `KeyError` at `leaf_set[lf].add(lf)` in Python; that is the `none`
of the guard.  The `none` of `leafLoop` is fuel exhaustion, and the fuel
passed is proved sufficient whenever the leaf list is the real
`find_leaves` list. -/
def compute_leaf_sets (g : Graph) (leaves : List String) :
    Option (String → Finset String) :=
  if leaves.all (fun lf => decide (lf ∈ g.nodes_in_order)) then
    let S0 : String → Finset String :=
      leaves.foldl (fun S lf => fun m => if m = lf then S m ∪ {lf} else S m)
        (fun _ => ∅)
    leafLoop g (g.nodes_in_order.length * leaves.length + 2) S0
  else none

/-- One extra pass exactly as C8 words it: set every node with children to
the union of its children's sets, unconditionally, in the given order. -/
def uncondPassAux (g : Graph) (S : String → Finset String) :
    List String → (String → Finset String)
  | [] => S
  | n :: rest =>
    if childrenD g n = [] then uncondPassAux g S rest
    else uncondPassAux g
      (fun m => if m = n then leafUnion S (childrenD g n) else S m) rest

def uncondPass (g : Graph) (S : String → Finset String) : String → Finset String :=
  uncondPassAux g S g.nodes_in_order.reverse

/-- One extra pass of the source's own loop body (assignments guarded by a
non-empty union). -/
def guardedPass (g : Graph) (S : String → Finset String) : String → Finset String :=
  (leafPassAux g S false g.nodes_in_order.reverse).1

/-- Insertion into a sorted list, for `sorted(list(s))`. -/
def insertSorted (x : String) : List String → List String
  | [] => [x]
  | y :: rest => if x ≤ y then x :: y :: rest else y :: insertSorted x rest

/-- Insertion sort on strings (lexicographic, as Python sorts ids). -/
def insSort : List String → List String
  | [] => []
  | x :: rest => insertSorted x (insSort rest)

theorem insertSorted_perm (x : String) :
    ∀ l : List String, List.Perm (insertSorted x l) (x :: l) := by
  intro l
  induction l with
  | nil => exact List.Perm.refl _
  | cons y rest ih =>
    simp only [insertSorted]
    by_cases h : x ≤ y
    · rw [if_pos h]
    · rw [if_neg h]
      exact List.Perm.trans (List.Perm.cons y ih) (List.Perm.swap x y rest)

theorem insSort_perm : ∀ l : List String, List.Perm (insSort l) l := by
  intro l
  induction l with
  | nil => exact List.Perm.refl _
  | cons x rest ih =>
    exact List.Perm.trans (insertSorted_perm x (insSort rest))
      (List.Perm.cons x ih)

theorem insertSorted_sorted (x : String) :
    ∀ l : List String, l.Sorted (fun a b => a ≤ b) →
    (insertSorted x l).Sorted (fun a b => a ≤ b) := by
  intro l
  induction l with
  | nil =>
    intro _
    simp [insertSorted]
  | cons y rest ih =>
    intro hs
    rw [List.sorted_cons] at hs
    simp only [insertSorted]
    by_cases h : x ≤ y
    · rw [if_pos h, List.sorted_cons, List.sorted_cons]
      refine ⟨?_, hs⟩
      intro b hb
      rcases List.mem_cons.mp hb with rfl | hb
      · exact h
      · exact le_trans h (hs.1 b hb)
    · rw [if_neg h, List.sorted_cons]
      refine ⟨?_, ih hs.2⟩
      intro b hb
      have hb2 : b ∈ x :: rest := (insertSorted_perm x rest).mem_iff.mp hb
      rcases List.mem_cons.mp hb2 with rfl | hb2
      · exact le_of_not_le h
      · exact hs.1 b hb2

theorem insSort_sorted : ∀ l : List String,
    (insSort l).Sorted (fun a b => a ≤ b) := by
  intro l
  induction l with
  | nil => simp [insSort]
  | cons x rest ih => exact insertSorted_sorted x (insSort rest) ih

theorem insSort_respects_perm (a b : List String) (h : List.Perm a b) :
    insSort a = insSort b :=
  List.eq_of_perm_of_sorted
    (List.Perm.trans (insSort_perm a) (List.Perm.trans h (insSort_perm b).symm))
    (insSort_sorted a) (insSort_sorted b)

/-- `sorted(list(s))` on a set of ids: insertion sort lifted to the
underlying multiset (well defined since sorting is permutation-invariant). -/
def sortedIds (s : Finset String) : List String :=
  Quot.lift insSort (fun a b hab => insSort_respects_perm a b hab) s.val

structure LeafObj where
  leafId : String
  leafHtml : String
  leafText : String
  depth : Nat
deriving DecidableEq

structure OptObj where
  optionId : String
  dstNodeId : String
  titleHtml : String
  contextHtml : String
  plainLabel : String
  imageSrc : String
deriving DecidableEq

structure QObj where
  nodeId : String
  questionHtml : String
  questionText : String
  options : List OptObj
deriving DecidableEq

/-- The JSON model `make_model` returns. -/
structure HModel where
  roots : List String
  questions : List QObj
  leaves : List LeafObj
  optionToLeafIds : List (String × List String)
  initialCandidates : List String
deriving DecidableEq

/-- The `for qid in question_ids` loop of `make_model`: builds the question
objects in order and threads the `option_to_leafset` dict. -/
def mmBuild (g : Graph) (leaf_sets : String → Finset String)
    (questions : List (String × HQuestion)) (otl : List (String × List String)) :
    List String → List QObj × List (String × List String)
  | [] => ([], otl)
  | qid :: rest =>
    match alookup questions qid with
    | some q =>
      let opt_objs := q.options.map (fun o =>
        { optionId := o.option_id, dstNodeId := o.dst, titleHtml := o.title_html,
          contextHtml := o.context_html, plainLabel := o.plain_label,
          imageSrc := o.image_src : OptObj })
      let otl' := q.options.foldl
        (fun acc o => aset acc o.option_id (sortedIds (leaf_sets o.dst))) otl
      let (qs, otlF) := mmBuild g leaf_sets questions otl' rest
      ({ nodeId := q.node_id, questionHtml := q.question_html,
         questionText := q.question_text, options := opt_objs } :: qs, otlF)
    | none => mmBuild g leaf_sets questions otl rest

/-- `make_model` of the source; `none` covers the no-root `ValueError` and
fuel exhaustion of the leaf-set fix-point. -/
def make_model (g : Graph) : Option HModel :=
  let roots := top_nodes g
  match roots with
  | [] => none
  | _ =>
    let questions := build_questions g
    let leaves := find_leaves g
    let depths := compute_depths g roots
    match compute_leaf_sets g leaves with
    | none => none
    | some leaf_sets =>
      let qo := mmBuild g leaf_sets questions [] g.nodes_in_order
      let leaf_objs := leaves.map (fun lf =>
        let lf_html := nodeHtmlD g lf
        { leafId := lf, leafHtml := lf_html,
          leafText := orS (strip_html_for_plain lf_html) (fallback_label lf),
          depth := depths lf : LeafObj })
      let all0 := roots.foldl (fun acc r => acc ∪ leaf_sets r) ∅
      let all_candidates := if all0 = ∅ then leaves.toFinset else all0
      some { roots := roots, questions := qo.1, leaves := leaf_objs,
             optionToLeafIds := qo.2,
             initialCandidates := sortedIds all_candidates }

/-! # Lemmas

First the association-list toolbox, then the graph invariant, then each
compiler in turn. -/

section AssocLemmas

variable {κ α : Type} [DecidableEq κ]

theorem alookup_aset_self (l : List (κ × α)) (k : κ) (v : α) :
    alookup (aset l k v) k = some v := by
  induction l with
  | nil => simp [aset, alookup]
  | cons p rest ih =>
    obtain ⟨k0, v0⟩ := p
    by_cases h : k = k0
    · simp [aset, alookup, h]
    · simp [aset, alookup, h, ih]

theorem alookup_aset_ne (l : List (κ × α)) (k k' : κ) (v : α) (h : k' ≠ k) :
    alookup (aset l k v) k' = alookup l k' := by
  induction l with
  | nil => simp [aset, alookup, h]
  | cons p rest ih =>
    obtain ⟨k0, v0⟩ := p
    by_cases hk : k = k0
    · subst hk
      simp [aset, alookup, h]
    · by_cases hk' : k' = k0 <;> simp [aset, alookup, hk, hk', ih]

theorem acontains_iff (l : List (κ × α)) (k : κ) :
    acontains l k = true ↔ k ∈ l.map Prod.fst := by
  induction l with
  | nil => simp [acontains, alookup]
  | cons p rest ih =>
    obtain ⟨k0, v0⟩ := p
    by_cases h : k = k0 <;> simp [acontains, alookup, h] at ih ⊢ <;> simp [ih]

theorem alookup_isSome_iff (l : List (κ × α)) (k : κ) :
    (alookup l k).isSome = true ↔ k ∈ l.map Prod.fst := acontains_iff l k

theorem alookup_eq_none (l : List (κ × α)) (k : κ) (h : k ∉ l.map Prod.fst) :
    alookup l k = none := by
  have := (alookup_isSome_iff l k).not.mpr h
  cases hl : alookup l k
  · rfl
  · rw [hl] at this; simp at this

theorem alookup_mem (l : List (κ × α)) (k : κ) (v : α) (h : alookup l k = some v) :
    (k, v) ∈ l := by
  induction l with
  | nil => simp [alookup] at h
  | cons p rest ih =>
    obtain ⟨k0, v0⟩ := p
    by_cases hk : k = k0
    · subst hk
      simp [alookup] at h
      simp [h]
    · simp [alookup, hk] at h
      exact List.mem_cons_of_mem _ (ih h)

theorem aset_map_fst_contains (l : List (κ × α)) (k : κ) (v : α)
    (h : k ∈ l.map Prod.fst) : (aset l k v).map Prod.fst = l.map Prod.fst := by
  induction l with
  | nil => simp at h
  | cons p rest ih =>
    obtain ⟨k0, v0⟩ := p
    by_cases hk : k = k0
    · simp [aset, hk]
    · simp [hk] at h
      simp [aset, hk, ih (by simpa using h)]

theorem aset_not_contains (l : List (κ × α)) (k : κ) (v : α)
    (h : k ∉ l.map Prod.fst) : aset l k v = l ++ [(k, v)] := by
  induction l with
  | nil => simp [aset]
  | cons p rest ih =>
    obtain ⟨k0, v0⟩ := p
    simp at h
    simp [aset, h.1, ih (by simpa using h.2)]

theorem mem_aset (l : List (κ × α)) (k : κ) (v : α) (p : κ × α)
    (h : p ∈ aset l k v) : p = (k, v) ∨ p ∈ l := by
  induction l with
  | nil => simp [aset] at h; simp [h]
  | cons q rest ih =>
    obtain ⟨k0, v0⟩ := q
    by_cases hk : k = k0
    · subst hk
      simp [aset] at h
      rcases h with h | h
      · exact Or.inl h
      · exact Or.inr (List.mem_cons_of_mem _ h)
    · simp [aset, hk] at h
      rcases h with h | h
      · exact Or.inr (by simp [h])
      · rcases ih h with h' | h'
        · exact Or.inl h'
        · exact Or.inr (List.mem_cons_of_mem _ h')

theorem alookup_append_left (l l' : List (κ × α)) (k : κ)
    (h : k ∈ l.map Prod.fst) : alookup (l ++ l') k = alookup l k := by
  induction l with
  | nil => simp at h
  | cons p rest ih =>
    obtain ⟨k0, v0⟩ := p
    by_cases hk : k = k0
    · simp [alookup, hk]
    · simp [hk] at h
      simp [alookup, hk, ih (by simpa using h)]

theorem alookup_append_right (l l' : List (κ × α)) (k : κ)
    (h : k ∉ l.map Prod.fst) : alookup (l ++ l') k = alookup l' k := by
  induction l with
  | nil => simp
  | cons p rest ih =>
    obtain ⟨k0, v0⟩ := p
    simp at h
    simp [alookup, h.1, ih (by simpa using h.2)]

end AssocLemmas

/-- Replacing the (first) entry of key `k` changes the per-entry sum by the
difference at that entry. -/
theorem aset_sum_count (l : List (String × List String)) (k : String)
    (cl w : List String) (n : String) (h : alookup l k = some cl) :
    ((aset l k w).map (fun p => p.2.count n)).sum + cl.count n
      = (l.map (fun p => p.2.count n)).sum + w.count n := by
  induction l with
  | nil => simp [alookup] at h
  | cons p rest ih =>
    obtain ⟨k0, v0⟩ := p
    by_cases hk : k = k0
    · subst hk
      simp [alookup] at h
      subst h
      simp [aset]
      omega
    · simp [alookup, hk] at h
      simp [aset, hk]
      have := ih h
      omega

theorem countOcc_eq_zero (g : Graph) (n : String)
    (hc : ∀ p ∈ g.children, ∀ c ∈ p.2, c ∈ g.nodes_in_order)
    (hn : n ∉ g.nodes_in_order) : countOcc g n = 0 := by
  unfold countOcc
  rw [List.sum_eq_zero]
  intro x hx
  simp only [List.mem_map] at hx
  obtain ⟨p, hp, rfl⟩ := hx
  rw [List.count_eq_zero]
  intro hmem
  exact hn (hc p hp n hmem)

/-! ## The graph invariant through the three operations -/

theorem ensure_node_registered (g : Graph) (nid : String) (h : Registered g nid) :
    ensure_node g nid = g := by
  obtain ⟨h1, h2, h3, h4⟩ := h
  unfold ensure_node
  simp [h1, h2, h3, h4]

theorem registered_of_wf (g : Graph) (nid : String) (hwf : GraphWF g)
    (hm : nid ∈ g.nodes_in_order) : Registered g nid := by
  obtain ⟨_, hc, hi, hh, _, _⟩ := hwf
  refine ⟨?_, ?_, ?_, hm⟩ <;> rw [acontains_iff]
  · rw [hc]; exact hm
  · rw [hi]; exact hm
  · rw [hh]; exact hm

theorem ensure_node_mem (g : Graph) (nid : String) (hwf : GraphWF g)
    (hm : nid ∈ g.nodes_in_order) : ensure_node g nid = g :=
  ensure_node_registered g nid (registered_of_wf g nid hwf hm)

theorem ensure_node_new (g : Graph) (nid : String) (hwf : GraphWF g)
    (hm : nid ∉ g.nodes_in_order) :
    ensure_node g nid =
      ⟨g.node_html ++ [(nid, fallback_label nid)], g.children ++ [(nid, [])],
        g.edge_label, g.indegree ++ [(nid, 0)], g.nodes_in_order ++ [nid]⟩ := by
  obtain ⟨_, hc, hi, hh, _, _⟩ := hwf
  have hcm : nid ∉ List.map Prod.fst g.children := by rw [hc]; exact hm
  have him : nid ∉ List.map Prod.fst g.indegree := by rw [hi]; exact hm
  have hhm : nid ∉ List.map Prod.fst g.node_html := by rw [hh]; exact hm
  have hc' : acontains g.children nid = false := by
    rw [Bool.eq_false_iff, ne_eq, acontains_iff]; exact hcm
  have hi' : acontains g.indegree nid = false := by
    rw [Bool.eq_false_iff, ne_eq, acontains_iff]; exact him
  have hh' : acontains g.node_html nid = false := by
    rw [Bool.eq_false_iff, ne_eq, acontains_iff]; exact hhm
  unfold ensure_node
  rw [hc', hi', hh']
  simp only [Bool.false_eq_true, if_false, if_neg hm]
  rw [aset_not_contains _ _ _ hhm, aset_not_contains _ _ _ hcm,
    aset_not_contains _ _ _ him]

theorem ensure_node_wf (g : Graph) (nid : String) (hwf : GraphWF g) :
    GraphWF (ensure_node g nid) := by
  by_cases hm : nid ∈ g.nodes_in_order
  · rw [ensure_node_mem g nid hwf hm]; exact hwf
  · rw [ensure_node_new g nid hwf hm]
    obtain ⟨hn, hc, hi, hh, hsub, hcnt⟩ := hwf
    refine ⟨?_, ?_, ?_, ?_, ?_, ?_⟩
    · simp [List.nodup_append, hn, hm]
    · simp [hc]
    · simp [hi]
    · simp [hh]
    · intro p hp c hcp
      simp only [List.mem_append] at hp
      rcases hp with hp | hp
      · exact List.mem_append_left _ (hsub p hp c hcp)
      · simp only [List.mem_singleton] at hp
        subst hp
        simp at hcp
    · intro n hnn
      have hocc : countOcc ⟨g.node_html ++ [(nid, fallback_label nid)],
          g.children ++ [(nid, [])], g.edge_label, g.indegree ++ [(nid, 0)],
          g.nodes_in_order ++ [nid]⟩ n = countOcc g n := by
        unfold countOcc
        simp
      rw [hocc]
      simp only [List.mem_append, List.mem_singleton] at hnn
      rcases hnn with hnn | hnn
      · rw [alookup_append_left _ _ _ (by rw [hi]; exact hnn)]
        exact hcnt n hnn
      · subst hnn
        rw [alookup_append_right _ _ _ (by rw [hi]; exact hm)]
        rw [countOcc_eq_zero g n hsub hm]
        simp [alookup]

/-- What `ensure_node` leaves and guarantees, in the form the other two
operations need. -/
theorem ensure_node_facts (g : Graph) (nid : String) (hwf : GraphWF g) :
    GraphWF (ensure_node g nid) ∧
    nid ∈ (ensure_node g nid).nodes_in_order ∧
    (∀ n, n ∈ g.nodes_in_order → n ∈ (ensure_node g nid).nodes_in_order) ∧
    (ensure_node g nid).edge_label = g.edge_label := by
  by_cases hm : nid ∈ g.nodes_in_order
  · rw [ensure_node_mem g nid hwf hm]
    exact ⟨hwf, hm, fun n h => h, rfl⟩
  · rw [ensure_node_new g nid hwf hm]
    refine ⟨by rw [← ensure_node_new g nid hwf hm]; exact ensure_node_wf g nid hwf,
      by simp, fun n h => by simp [h], rfl⟩

theorem add_node_label_wf (g : Graph) (nid raw : String) (hwf : GraphWF g) :
    GraphWF (add_node_label g nid raw) := by
  unfold add_node_label
  obtain ⟨hwf', hmem, _, _⟩ := ensure_node_facts g nid hwf
  obtain ⟨hn, hc, hi, hh, hsub, hcnt⟩ := hwf'
  refine ⟨hn, hc, hi, ?_, hsub, hcnt⟩
  rw [aset_map_fst_contains _ _ _ (by rw [hh]; exact hmem), hh]

theorem add_edge_wf (g : Graph) (src dst : String) (lbl : Option String)
    (hwf : GraphWF g) : GraphWF (add_edge g src dst lbl) := by
  unfold add_edge
  obtain ⟨hwf1, hsrc0, _, _⟩ := ensure_node_facts g src hwf
  obtain ⟨hwf2, hdst, hkeep, _⟩ := ensure_node_facts (ensure_node g src) dst hwf1
  have hsrc : src ∈ (ensure_node (ensure_node g src) dst).nodes_in_order :=
    hkeep src hsrc0
  set g2 := ensure_node (ensure_node g src) dst with hg2
  obtain ⟨hn, hc, hi, hh, hsub, hcnt⟩ := hwf2
  have hcl : ∃ cl, alookup g2.children src = some cl := by
    have := (alookup_isSome_iff g2.children src).mpr (by rw [hc]; exact hsrc)
    cases hl : alookup g2.children src
    · rw [hl] at this; simp at this
    · exact ⟨_, rfl⟩
  obtain ⟨cl, hcl⟩ := hcl
  have hdl : alookup g2.indegree dst = some (countOcc g2 dst) := hcnt dst hdst
  refine ⟨hn, ?_, ?_, hh, ?_, ?_⟩
  · rw [aset_map_fst_contains _ _ _ (by rw [hc]; exact hsrc), hc]
  · rw [aset_map_fst_contains _ _ _ (by rw [hi]; exact hdst), hi]
  · intro p hp c hcp
    rcases mem_aset _ _ _ _ hp with hp' | hp'
    · subst hp'
      simp only at hcp
      rw [hcl] at hcp
      simp only [Option.getD_some, List.mem_append, List.mem_singleton] at hcp
      rcases hcp with hcp | hcp
      · exact hsub _ (alookup_mem _ _ _ hcl) c hcp
      · rw [hcp]; exact hdst
    · exact hsub p hp' c hcp
  · intro n hnn
    show alookup (aset g2.indegree dst ((alookup g2.indegree dst).getD 0 + 1)) n
      = some ((List.map (fun p => p.2.count n)
          (aset g2.children src ((alookup g2.children src).getD [] ++ [dst]))).sum)
    have hsum := aset_sum_count g2.children src cl
      ((alookup g2.children src).getD [] ++ [dst]) n hcl
    rw [hcl] at hsum ⊢
    rw [hdl]
    simp only [Option.getD_some, List.count_append] at hsum ⊢
    by_cases hnd : n = dst
    · subst hnd
      rw [alookup_aset_self]
      have hone : List.count n [n] = 1 := by simp
      rw [hone] at hsum
      have : countOcc g2 n = (List.map (fun p => p.2.count n) g2.children).sum := rfl
      congr 1
      omega
    · rw [alookup_aset_ne _ _ _ _ hnd, hcnt n hnn]
      have hzero : List.count n [dst] = 0 := by
        simp [List.count_singleton]
        exact fun h => hnd h.symm
      rw [hzero] at hsum
      have : countOcc g2 n = (List.map (fun p => p.2.count n) g2.children).sum := rfl
      congr 1
      omega

theorem applyOp_wf (g : Graph) (op : GraphOp) (hwf : GraphWF g) :
    GraphWF (applyOp g op) := by
  cases op with
  | ensure nid => exact ensure_node_wf g nid hwf
  | label nid raw => exact add_node_label_wf g nid raw hwf
  | edge s d l => exact add_edge_wf g s d l hwf

theorem emptyGraph_wf : GraphWF emptyGraph := by
  refine ⟨List.nodup_nil, rfl, rfl, rfl, ?_, ?_⟩ <;> simp [emptyGraph]

theorem foldl_applyOp_wf (ops : List GraphOp) (g : Graph) (hwf : GraphWF g) :
    GraphWF (ops.foldl applyOp g) := by
  induction ops generalizing g with
  | nil => exact hwf
  | cons op rest ih => exact ih _ (applyOp_wf g op hwf)

theorem processLine_wf (g : Graph) (line : String) (hwf : GraphWF g) :
    GraphWF (processLine g line) := by
  simp only [processLine]
  split
  · exact hwf
  · split
    · exact hwf
    · split
      · exact hwf
      · split
        · exact add_node_label_wf _ _ _ hwf
        · split
          · exact add_edge_wf _ _ _ _ hwf
          · exact hwf

theorem foldl_processLine_wf (lines : List String) (g : Graph) (hwf : GraphWF g) :
    GraphWF (lines.foldl processLine g) := by
  induction lines generalizing g with
  | nil => exact hwf
  | cons l rest ih => exact ih _ (processLine_wf g l hwf)

theorem parse_mermaid_wf (text : String) : GraphWF (parse_mermaid text) :=
  foldl_processLine_wf _ _ emptyGraph_wf

/-- C10: after `parse_mermaid` on any input string, and after any sequence of
`ensure_node` / `add_node_label` / `add_edge` calls, the graph's bookkeeping
is consistent: `nodes_in_order` has no duplicates, its elements are exactly
the keys of the `children`, `indegree` and `node_html` maps, and
`indegree[n]` counts the occurrences of `n` across all child lists. -/
theorem claim_C10_graph_invariant :
    (∀ ops : List GraphOp, GraphWF (applyOps ops)) ∧
    (∀ text : String, GraphWF (parse_mermaid text)) :=
  ⟨fun ops => foldl_applyOp_wf ops emptyGraph emptyGraph_wf, parse_mermaid_wf⟩

/-- C9: re-declaring the label of an already registered node replaces only
that node's stored label with the normalized new label; the child lists, the
in-degree map, the first-seen order, the edge labels, and every other node's
stored label are unchanged. -/
theorem claim_C9_relabel_frame (g : Graph) (nid raw : String)
    (h : Registered g nid) :
    (add_node_label g nid raw).children = g.children ∧
    (add_node_label g nid raw).indegree = g.indegree ∧
    (add_node_label g nid raw).nodes_in_order = g.nodes_in_order ∧
    (add_node_label g nid raw).edge_label = g.edge_label ∧
    alookup (add_node_label g nid raw).node_html nid
      = some (mmd_label_to_html raw) ∧
    ∀ m, m ≠ nid →
      alookup (add_node_label g nid raw).node_html m = alookup g.node_html m := by
  unfold add_node_label
  rw [ensure_node_registered g nid h]
  exact ⟨rfl, rfl, rfl, rfl, alookup_aset_self _ _ _,
    fun m hm => alookup_aset_ne _ _ _ _ hm⟩

/-- Witness for C9 at a concrete graph built by the parser. -/
theorem claim_C9_relabel_frame_witness :
    (add_node_label (parse_mermaid "A --> B") "A" "new").children
      = (parse_mermaid "A --> B").children ∧
    (add_node_label (parse_mermaid "A --> B") "A" "new").indegree
      = (parse_mermaid "A --> B").indegree ∧
    (add_node_label (parse_mermaid "A --> B") "A" "new").nodes_in_order
      = (parse_mermaid "A --> B").nodes_in_order ∧
    (add_node_label (parse_mermaid "A --> B") "A" "new").edge_label
      = (parse_mermaid "A --> B").edge_label ∧
    alookup (add_node_label (parse_mermaid "A --> B") "A" "new").node_html "A"
      = some (mmd_label_to_html "new") ∧
    ∀ m, m ≠ "A" →
      alookup (add_node_label (parse_mermaid "A --> B") "A" "new").node_html m
        = alookup (parse_mermaid "A --> B").node_html m :=
  claim_C9_relabel_frame (parse_mermaid "A --> B") "A" "new" (by decide)

/-- C5: the parser is total — every line that is blank, a comment, the chart
declaration, or matches neither the node shape nor the edge shape leaves the
graph unchanged, and `parse_mermaid` is the plain fold of the line handler
over the split lines (no failure path exists). -/
theorem claim_C5_parser_total_skip :
    (∀ text : String,
      parse_mermaid text = (pySplitLines text).foldl processLine emptyGraph) ∧
    (∀ (g : Graph) (raw : String),
      (pyStrip (pyRstrip raw) = "" ∨
       pyStartsWith (pyStrip (pyRstrip raw)) "%%" = true ∨
       pyStartsWith (pyStrip (pyRstrip raw)) "flowchart" = true ∨
       (nodeMatch (pyRstrip raw) = none ∧ edgeMatch (pyRstrip raw) = none)) →
      processLine g raw = g) := by
  refine ⟨fun text => rfl, fun g raw h => ?_⟩
  simp only [processLine]
  split
  · rfl
  · split
    · rfl
    · split
      · rfl
      · rename_i h1 h2 h3
        rcases h with h | h | h | ⟨hn, he⟩
        · exact absurd h h1
        · exact absurd h h2
        · exact absurd h h3
        · rw [hn, he]

/-- Witness for C5 at a line that matches nothing. -/
theorem claim_C5_parser_total_skip_witness :
    processLine (parse_mermaid "A --> B") "this is ~ not a declaration!"
      = parse_mermaid "A --> B" :=
  claim_C5_parser_total_skip.2 (parse_mermaid "A --> B")
    "this is ~ not a declaration!" (by decide)

/-- C6 as stated is false: an edge label that is exactly an image tag has
empty markup after image removal, yet the returned image tag and source are
those extracted from the label, not empty; and with a fallback whose
plain-text form is empty the title falls back to the raw fallback text, not
to its plain-text form. -/
theorem claim_C6_counterexample :
    strip_img_tags (mmd_label_to_html "<img src='p.png'>") = "" ∧
    (parse_edge_label "<img src='p.png'>" "<b></b>").edgeImageTag ≠ "" ∧
    (parse_edge_label "<img src='p.png'>" "<b></b>").edgeImageSrc ≠ "" ∧
    (parse_edge_label "<img src='p.png'>" "<b></b>").titleHtml
      ≠ strip_html_for_plain "<b></b>" := by decide

/-- C6 amended: when the normalized markup is empty after image removal, the
decomposition degenerates to plain text: the title and plain label are the
plain-text form of the fallback (or the fallback itself when that is empty),
the context is empty, and the image tag and source fields carry whatever
image was extracted from the original label (empty exactly when the label
held no image). -/
theorem claim_C6_amended (edge_html fallback_text : String)
    (h : strip_img_tags (mmd_label_to_html edge_html) = "") :
    parse_edge_label edge_html fallback_text =
      ⟨orS (strip_html_for_plain fallback_text) fallback_text, "",
        orS (strip_html_for_plain fallback_text) fallback_text,
        (extract_first_img_tag (mmd_label_to_html edge_html)).getD "",
        if (extract_first_img_tag (mmd_label_to_html edge_html)).getD "" ≠ "" then
          extract_img_src
            ((extract_first_img_tag (mmd_label_to_html edge_html)).getD "")
        else ""⟩ := by
  simp only [parse_edge_label, h]
  rfl

/-! ## Counting and position helpers for the DFS proof -/

theorem filter_length_mono {α : Type} (l : List α) (p q : α → Bool)
    (h : ∀ a, p a = true → q a = true) :
    (l.filter p).length ≤ (l.filter q).length := by
  induction l with
  | nil => simp
  | cons a rest ih =>
    simp only [List.filter_cons]
    by_cases hp : p a = true
    · rw [if_pos hp, if_pos (h a hp)]
      simp only [List.length_cons]
      omega
    · rw [if_neg hp]
      by_cases hq : q a = true
      · rw [if_pos hq]
        simp only [List.length_cons]
        omega
      · rw [if_neg hq]
        exact ih

theorem filter_length_strict {α : Type} (l : List α) (p q : α → Bool)
    (h : ∀ a, p a = true → q a = true) (v : α) (hv : v ∈ l)
    (hq : q v = true) (hp : p v = false) :
    (l.filter p).length < (l.filter q).length := by
  induction l with
  | nil => simp at hv
  | cons a rest ih =>
    simp only [List.filter_cons]
    rcases List.mem_cons.mp hv with rfl | hv
    · rw [if_neg (by simp [hp]), if_pos hq]
      have := filter_length_mono rest p q h
      simp only [List.length_cons]
      omega
    · have := ih hv
      by_cases hpa : p a = true
      · rw [if_pos hpa, if_pos (h a hpa)]
        simp only [List.length_cons]
        omega
      · rw [if_neg hpa]
        by_cases hqa : q a = true
        · rw [if_pos hqa]
          simp only [List.length_cons]
          omega
        · rw [if_neg hqa]
          exact this

theorem indexOf_append_self {α : Type} [DecidableEq α] (l : List α) (a : α)
    (h : a ∉ l) : (l ++ [a]).indexOf a = l.length := by
  induction l with
  | nil => simp
  | cons b rest ih =>
    simp only [List.mem_cons] at h
    push_neg at h
    simp only [List.cons_append]
    rw [List.indexOf_cons_ne _ (Ne.symm h.1), ih h.2]
    rfl

theorem nodup_subset_length {α : Type} (D N : List α) (hnd : D.Nodup)
    (hsub : ∀ x ∈ D, x ∈ N) : D.length ≤ N.length :=
  (hnd.subperm (fun {x} hx => hsub x hx)).length_le

/-! ## Graph-structure helpers under the invariant -/

theorem childrenD_subset_nodes (g : Graph) (hwf : GraphWF g) (u v : String)
    (h : v ∈ childrenD g u) : v ∈ g.nodes_in_order := by
  obtain ⟨-, -, -, -, hsub, -⟩ := hwf
  unfold childrenD at h
  cases hl : alookup g.children u with
  | none => rw [hl] at h; simp at h
  | some cl =>
    rw [hl] at h
    simp at h
    exact hsub _ (alookup_mem _ _ _ hl) v h

theorem edge_src_mem (g : Graph) (hwf : GraphWF g) (u : String)
    (h : childrenD g u ≠ []) : u ∈ g.nodes_in_order := by
  obtain ⟨-, hc, -, -, -, -⟩ := hwf
  unfold childrenD at h
  cases hl : alookup g.children u with
  | none => rw [hl] at h; simp at h
  | some cl =>
    rw [← hc]
    have := alookup_mem _ _ _ hl
    exact List.mem_map.mpr ⟨(u, cl), this, rfl⟩

theorem childrenD_length_le (g : Graph) (u : String) :
    (childrenD g u).length ≤ CLen g := by
  unfold childrenD CLen
  cases hl : alookup g.children u with
  | none => simp
  | some cl =>
    simp only [Option.getD_some]
    have hm := alookup_mem _ _ _ hl
    have : cl.length ∈ (g.children.map (fun p => p.2.length)) :=
      List.mem_map.mpr ⟨(u, cl), hm, rfl⟩
    exact List.single_le_sum (fun x _ => Nat.zero_le x) _ this

/-! ## White-count bookkeeping -/

theorem whiteCount_le (g : Graph) (s : DfsState) :
    whiteCount g s ≤ g.nodes_in_order.length :=
  (List.filter_sublist _).length_le

theorem whiteCount_pos (g : Graph) (s : DfsState) (u : String)
    (hu : s.color u = 0) (hm : u ∈ g.nodes_in_order) : 1 ≤ whiteCount g s := by
  unfold whiteCount
  have : u ∈ g.nodes_in_order.filter (fun n => s.color n = 0) :=
    List.mem_filter.mpr ⟨hm, by simp [hu]⟩
  exact List.length_pos.mpr (List.ne_nil_of_mem this)

theorem whiteCount_mono (g : Graph) (s s' : DfsState)
    (h : ∀ n, s'.color n = 0 → s.color n = 0) :
    whiteCount g s' ≤ whiteCount g s :=
  filter_length_mono _ _ _ (by intro a ha; simp at ha ⊢; exact h a ha)

theorem whiteCount_strict (g : Graph) (s s' : DfsState)
    (h : ∀ n, s'.color n = 0 → s.color n = 0) (v : String)
    (hv : v ∈ g.nodes_in_order) (hvw : s.color v = 0) (hvw' : s'.color v ≠ 0) :
    whiteCount g s' < whiteCount g s :=
  filter_length_strict _ _ _ (by intro a ha; simp at ha ⊢; exact h a ha) v hv
    (by simp [hvw]) (by simp [hvw'])

theorem whiteCount_setColor (g : Graph) (s : DfsState) (u : String) (c : Nat)
    (hc : c ≠ 0) (hu : s.color u = 0) (hm : u ∈ g.nodes_in_order) :
    whiteCount g (setColor s u c) < whiteCount g s := by
  apply whiteCount_strict g s (setColor s u c)
  · intro n hn
    simp only [setColor] at hn
    split at hn
    · exact absurd hn hc
    · exact hn
  · exact hm
  · exact hu
  · simp [setColor, hc]

/-! ## The cycle-reconstruction walk -/

theorem walkCycle_stop (g : Graph) (parent : String → Option String)
    (v : String) (acc : List String) (fuel : Nat)
    (hhead : acc.head? = some v)
    (hacc : List.Chain' (fun a b => Edge g b a) acc)
    (hlast : ∀ la, acc.getLast? = some la → Edge g v la) :
    ∃ cyc, walkCycle parent (fuel + 1) (some v) v acc = some cyc ∧
      IsCyclePath g cyc ∧ cyc.head? = some v := by
  refine ⟨(acc ++ [v]).reverse, by simp [walkCycle], ?_, ?_⟩
  · have hchain : List.Chain' (fun a b => Edge g b a) (acc ++ [v]) := by
      rw [List.chain'_append]
      refine ⟨hacc, List.chain'_singleton _, ?_⟩
      intro x hx y hy
      simp at hy
      subst hy
      exact hlast x hx
    have hne : acc ≠ [] := by
      intro h; rw [h] at hhead; simp at hhead
    refine ⟨?_, ?_, ?_⟩
    · simp only [List.length_reverse, List.length_append, List.length_singleton]
      have := List.length_pos.mpr hne
      omega
    · rw [List.head?_reverse, List.getLast?_reverse]
      simp [List.getLast?_append, List.head?_append, hhead]
    · rw [List.chain'_reverse]
      exact hchain
  · rw [List.head?_reverse]
    simp [List.getLast?_append]

theorem walkCycle_spec (g : Graph) (s : DfsState) (v : String) :
    ∀ (D : List String) (u : String) (fuel : Nat) (acc : List String),
    List.Chain' (fun a b => s.parent a = some b ∧ Edge g b a) (u :: D) →
    (v = u ∨ v ∈ D) →
    (u :: D).length ≤ fuel →
    acc.head? = some v →
    List.Chain' (fun a b => Edge g b a) acc →
    (∀ la, acc.getLast? = some la → Edge g u la) →
    ∃ cyc, walkCycle s.parent fuel (some u) v acc = some cyc ∧
      IsCyclePath g cyc ∧ cyc.head? = some v := by
  intro D
  induction D with
  | nil =>
    intro u fuel acc hch hv hfuel hhead hacc hlast
    obtain ⟨fuel, rfl⟩ : ∃ f, fuel = f + 1 := by
      cases fuel
      · simp at hfuel
      · exact ⟨_, rfl⟩
    rcases hv with rfl | hv
    · exact walkCycle_stop g s.parent v acc fuel hhead hacc hlast
    · simp at hv
  | cons w D ih =>
    intro u fuel acc hch hv hfuel hhead hacc hlast
    obtain ⟨fuel, rfl⟩ : ∃ f, fuel = f + 1 := by
      cases fuel
      · simp at hfuel
      · exact ⟨_, rfl⟩
    by_cases huv : v = u
    · subst huv
      exact walkCycle_stop g s.parent v acc fuel hhead hacc hlast
    · have hv' : v ∈ w :: D := by
        rcases hv with rfl | hv
        · exact absurd rfl huv
        · exact hv
      have hlink : s.parent u = some w ∧ Edge g w u :=
        (List.chain'_cons.mp hch).1
      have hne : acc ≠ [] := by
        intro h; rw [h] at hhead; simp at hhead
      have hstep : walkCycle s.parent (fuel + 1) (some u) v acc
          = walkCycle s.parent fuel (s.parent u) v (acc ++ [u]) := by
        simp only [walkCycle]
        rw [if_neg (fun h => huv h.symm)]
      obtain ⟨cyc, hrun, hcyc, hhd⟩ := ih w fuel (acc ++ [u])
        (List.chain'_cons.mp hch).2
        (List.mem_cons.mp hv')
        (by simp only [List.length_cons] at hfuel ⊢; omega)
        (by simp [List.head?_append, hhead])
        (by
          rw [List.chain'_append]
          refine ⟨hacc, List.chain'_singleton _, ?_⟩
          intro x hx y hy
          simp at hy
          subst hy
          exact hlast x hx)
        (by
          intro la hla
          simp [List.getLast?_append] at hla
          subst hla
          exact hlink.2)
      refine ⟨cyc, ?_, hcyc, hhd⟩
      rw [hstep, hlink.1]
      exact hrun

/-! ## The DFS invariant induction -/

theorem chain'_imp_mem {α : Type} {R S : α → α → Prop} :
    ∀ l : List α, (∀ a ∈ l, ∀ b ∈ l, R a b → S a b) →
    List.Chain' R l → List.Chain' S l := by
  intro l
  induction l with
  | nil => intro _ _; exact List.chain'_nil
  | cons a rest ih =>
    intro h hch
    rw [List.chain'_cons'] at hch ⊢
    refine ⟨?_, ?_⟩
    · intro y hy
      have hym : y ∈ a :: rest := by
        cases rest with
        | nil => simp at hy
        | cons b r => simp at hy; simp [hy]
      exact h a (by simp) y hym (hch.1 y hy)
    · exact ih (fun x hx b hb hr => h x (by simp [hx]) b (by simp [hb]) hr) hch.2

theorem setColor_color (s : DfsState) (u : String) (c : Nat) (n : String) :
    (setColor s u c).color n = if n = u then c else s.color n := rfl

theorem setColor_parent (s : DfsState) (u : String) (c : Nat) :
    (setColor s u c).parent = s.parent := rfl

theorem setParent_color (s : DfsState) (v w : String) :
    (setParent s v w).color = s.color := rfl

theorem setParent_parent (s : DfsState) (v w : String) (n : String) :
    (setParent s v w).parent n = if n = v then some w else s.parent n := rfl

theorem dfsRun_spec (g : Graph) (hwf : GraphWF g) : ∀ fuel : Nat,
    (∀ u s D F, VisitPre g u s D F →
      whiteCount g s * (CLen g + 2) ≤ fuel →
      ∃ s' res, dfsRun g fuel (.visit u s) = some (s', res) ∧
        (∀ cyc, res = some cyc → IsCyclePath g cyc) ∧
        (res = none → DfsPost g s s' D ∧ s'.color u = 2)) ∧
    (∀ u rest s D F, KidsPre g u rest s D F →
      rest.length + 1 + whiteCount g s * (CLen g + 2) ≤ fuel →
      ∃ s' res, dfsRun g fuel (.kids u rest s) = some (s', res) ∧
        (∀ cyc, res = some cyc → IsCyclePath g cyc) ∧
        (res = none → DfsPost g s s' (u :: D) ∧ ∀ v ∈ rest, s'.color v = 2)) := by
  intro fuel
  induction fuel with
  | zero =>
    constructor
    · intro u s D F hpre hfuel
      obtain ⟨-, -, -, -, hwhite, humem, -, -⟩ := hpre
      have := whiteCount_pos g s u hwhite humem
      have : 2 ≤ whiteCount g s * (CLen g + 2) :=
        le_trans (by omega) (Nat.mul_le_mul_right _ this)
      omega
    · intro u rest s D F hpre hfuel
      omega
  | succ fuel ih =>
    obtain ⟨ihv, ihk⟩ := ih
    constructor
    · -- visit case
      intro u s D F hpre hfuel
      obtain ⟨⟨hgIff, hDnd, hDsub, hDch⟩, hfin, hwp, hrange, hwhite, humem, hpar,
        hparedge⟩ := hpre
      have huD : u ∉ D := fun hin => by
        have := (hgIff u).mpr hin
        rw [hwhite] at this
        cases this
      have hkpre : KidsPre g u (childrenD g u) (setColor s u 1) D F := by
        refine ⟨⟨?_, ?_, ?_, ?_⟩, ?_, ?_, ?_, humem, fun v hv => hv⟩
        · intro n
          rw [setColor_color]
          by_cases hn : n = u
          · subst hn; simp [huD]
          · simp only [if_neg hn, List.mem_cons]
            rw [hgIff]
            constructor
            · exact Or.inr
            · intro h; rcases h with h | h
              · exact absurd h hn
              · exact h
        · exact List.nodup_cons.mpr ⟨huD, hDnd⟩
        · intro n hn
          rcases List.mem_cons.mp hn with rfl | hn
          · exact humem
          · exact hDsub n hn
        · rw [List.chain'_cons']
          refine ⟨?_, ?_⟩
          · intro y hy
            rw [setColor_parent]
            exact ⟨hpar.trans (by rw [hy]), hparedge y hy⟩
          · refine chain'_imp_mem D (fun a _ b _ hr => ?_) hDch
            rw [setColor_parent]
            exact hr
        · obtain ⟨hbIff, hFnd, hFsub, hFord⟩ := hfin
          refine ⟨?_, hFnd, hFsub, hFord⟩
          intro n
          rw [setColor_color]
          by_cases hn : n = u
          · rw [if_pos hn]
            constructor
            · intro h; exact absurd h (by decide)
            · intro hmem
              have h2 := (hbIff n).mpr hmem
              rw [hn, hwhite] at h2
              exact absurd h2 (by decide)
          · rw [if_neg hn]
            exact hbIff n
        · intro n hn
          rw [setColor_color] at hn
          split at hn
          · omega
          · rw [setColor_parent]
            rename_i hne
            exact hwp n hne hn
        · intro n
          rw [setColor_color]
          split
          · omega
          · exact hrange n
      have hW1 : whiteCount g (setColor s u 1) < whiteCount g s :=
        whiteCount_setColor g s u 1 (by omega) hwhite humem
      have hWpos := whiteCount_pos g s u hwhite humem
      have hlen := childrenD_length_le g u
      have hfuel1 : (childrenD g u).length + 1 +
          whiteCount g (setColor s u 1) * (CLen g + 2) ≤ fuel := by
        have hmul : (whiteCount g (setColor s u 1) + 1) * (CLen g + 2)
            ≤ whiteCount g s * (CLen g + 2) :=
          Nat.mul_le_mul_right _ (by omega)
        rw [Nat.add_mul, Nat.one_mul] at hmul
        omega
      obtain ⟨s2, res, hrun2, hsound2, hpost2⟩ :=
        ihk u (childrenD g u) (setColor s u 1) D F hkpre hfuel1
      cases res with
      | some cyc =>
        refine ⟨s2, some cyc, ?_, ?_, by simp⟩
        · simp only [dfsRun]
          rw [hrun2]
        · intro c hc
          cases hc
          exact hsound2 cyc rfl
      | none =>
        obtain ⟨⟨⟨hgIff2, hnd2, hsub2, hch2⟩, ⟨F2, hfin2⟩, hshr2, hgrow2, hwp2,
          hrng2, hpst2⟩, hkblack⟩ := hpost2 rfl
        have huD2 : u ∉ D := huD
        have hugray2 : s2.color u = 1 := (hgIff2 u).mpr (by simp)
        refine ⟨setColor s2 u 2, none, ?_, by simp, ?_⟩
        · simp only [dfsRun]
          rw [hrun2]
        intro _
        obtain ⟨hbIff2, hFnd2, hFsub2, hFord2⟩ := hfin2
        have huF2 : u ∉ F2 := fun hin => by
          have := (hbIff2 u).mpr hin
          rw [hugray2] at this
          cases this
        constructor
        · refine ⟨⟨?_, hDnd, hDsub, ?_⟩, ⟨F2 ++ [u], ?_, ?_, ?_, ?_⟩, ?_, ?_,
            ?_, ?_, ?_⟩
          · -- gray iff for the popped stack
            intro n
            rw [setColor_color]
            by_cases hn : n = u
            · subst hn
              simp [huD2]
            · rw [if_neg hn]
              rw [hgIff2]
              simp [hn]
          · rw [setColor_parent]
            have := (List.chain'_cons'.mp hch2).2
            refine chain'_imp_mem D (fun a _ b _ hr => hr) this
          · -- black iff with u appended
            intro n
            rw [setColor_color]
            by_cases hn : n = u
            · subst hn; simp
            · rw [if_neg hn, hbIff2]
              simp [hn]
          · simp [List.nodup_append, hFnd2, huF2]
          · intro n hn
            rcases List.mem_append.mp hn with hn | hn
            · exact hFsub2 n hn
            · simp at hn; subst hn; exact humem
          · intro n hn v hv
            rcases List.mem_append.mp hn with hn | hn
            · obtain ⟨hvF, hidx⟩ := hFord2 n hn v hv
              refine ⟨List.mem_append_left _ hvF, ?_⟩
              rw [List.indexOf_append_of_mem hvF, List.indexOf_append_of_mem hn]
              exact hidx
            · simp at hn
              subst hn
              have hvb : s2.color v = 2 := hkblack v hv
              have hvF : v ∈ F2 := (hbIff2 v).mp hvb
              refine ⟨List.mem_append_left _ hvF, ?_⟩
              rw [List.indexOf_append_of_mem hvF, indexOf_append_self _ _ huF2]
              exact (List.indexOf_lt_length).mpr hvF
          · intro n hn
            rw [setColor_color] at hn
            split at hn
            · omega
            · rename_i hne
              have := hshr2 n hn
              rw [setColor_color, if_neg hne] at this
              exact this
          · intro n hn
            rw [setColor_color]
            by_cases hne : n = u
            · simp [hne]
            · rw [if_neg hne]
              apply hgrow2
              rw [setColor_color, if_neg hne]
              exact hn
          · intro n hn
            rw [setColor_color] at hn
            split at hn
            · omega
            · rw [setColor_parent]
              exact hwp2 n hn
          · intro n
            rw [setColor_color]
            split
            · omega
            · exact hrng2 n
          · intro n hn
            rw [setColor_parent]
            have hnu : n ≠ u := fun he => by rw [he, hwhite] at hn; exact hn rfl
            have : (setColor s u 1).color n ≠ 0 := by
              rw [setColor_color, if_neg hnu]
              exact hn
            rw [hpst2 n this, setColor_parent]
        · rw [setColor_color]
          simp
    · -- kids case
      intro u rest s D F hpre hfuel
      cases rest with
      | nil =>
        refine ⟨s, none, by simp [dfsRun], by simp, ?_⟩
        intro _
        obtain ⟨hgray, hfin, hwp, hrange, humem, -⟩ := hpre
        exact ⟨⟨hgray, ⟨F, hfin⟩, fun n h => h, fun n h => h, hwp, hrange,
          fun n _ => rfl⟩, by simp⟩
      | cons v rest' =>
        obtain ⟨⟨hgIff, hnd, hsub, hch⟩, hfin, hwp, hrange, humem, hkids⟩ := hpre
        have hvchild : v ∈ childrenD g u := hkids v (by simp)
        have hedge : Edge g u v := hvchild
        by_cases hv0 : s.color v = 0
        · -- white child: set parent, visit, continue
          have hvN : v ∈ g.nodes_in_order :=
            childrenD_subset_nodes g hwf u v hvchild
          have hvnotin : v ∉ u :: D := fun hin => by
            have := (hgIff v).mpr hin
            rw [hv0] at this
            cases this
          have hvpre : VisitPre g v (setParent s v u) (u :: D) F := by
            refine ⟨⟨?_, hnd, hsub, ?_⟩, ?_, ?_, ?_, hv0, hvN, ?_, ?_⟩
            · intro n
              rw [setParent_color]
              exact hgIff n
            · refine chain'_imp_mem (u :: D) (fun a ha b _ hr => ?_) hch
              have hav : a ≠ v := fun he => (he ▸ hvnotin) ha
              rw [setParent_parent, if_neg hav]
              exact hr
            · obtain ⟨hbIff, hFnd, hFsub, hFord⟩ := hfin
              exact ⟨fun n => by rw [setParent_color]; exact hbIff n, hFnd,
                hFsub, hFord⟩
            · intro n hnv hn
              rw [setParent_color] at hn
              rw [setParent_parent, if_neg hnv]
              exact hwp n hn
            · intro n
              rw [setParent_color]
              exact hrange n
            · rw [setParent_parent, if_pos rfl]
              simp
            · intro w hw
              simp at hw
              subst hw
              exact hedge
          have hWeq : whiteCount g (setParent s v u) = whiteCount g s := rfl
          have hfuel2 : whiteCount g (setParent s v u) * (CLen g + 2) ≤ fuel := by
            rw [hWeq]
            simp only [List.length_cons] at hfuel
            omega
          obtain ⟨s2, res, hrun2, hsound2, hpost2⟩ :=
            ihv v (setParent s v u) (u :: D) F hvpre hfuel2
          cases res with
          | some cyc =>
            refine ⟨s2, some cyc, ?_, ?_, by simp⟩
            · simp only [dfsRun]
              rw [if_pos hv0, hrun2]
            · intro c hc
              cases hc
              exact hsound2 cyc rfl
          | none =>
            obtain ⟨⟨hgray2, ⟨F2, hfin2⟩, hshr2, hgrow2, hwp2, hrng2, hpst2⟩,
              hvblack⟩ := hpost2 rfl
            have hkpre2 : KidsPre g u rest' s2 D F2 :=
              ⟨hgray2, hfin2, hwp2, hrng2, humem, fun w hw => hkids w (by simp [hw])⟩
            have hW2 : whiteCount g s2 < whiteCount g s := by
              have hshr : ∀ n, s2.color n = 0 → s.color n = 0 := by
                intro n hn
                have := hshr2 n hn
                rw [setParent_color] at this
                exact this
              exact whiteCount_strict g s s2 hshr v hvN hv0 (by rw [hvblack]; omega)
            have hfuel3 : rest'.length + 1 + whiteCount g s2 * (CLen g + 2)
                ≤ fuel := by
              have hmul : (whiteCount g s2 + 1) * (CLen g + 2)
                  ≤ whiteCount g s * (CLen g + 2) :=
                Nat.mul_le_mul_right _ (by omega)
              rw [Nat.add_mul, Nat.one_mul] at hmul
              simp only [List.length_cons] at hfuel
              omega
            obtain ⟨s3, res3, hrun3, hsound3, hpost3⟩ :=
              ihk u rest' s2 D F2 hkpre2 hfuel3
            refine ⟨s3, res3, ?_, hsound3, ?_⟩
            · simp only [dfsRun]
              rw [if_pos hv0, hrun2]
              exact hrun3
            · intro hres3
              obtain ⟨⟨hgray3, hF3, hshr3, hgrow3, hwp3, hrng3, hpst3⟩,
                hrestblack⟩ := hpost3 hres3
              refine ⟨⟨hgray3, hF3, ?_, ?_, hwp3, hrng3, ?_⟩, ?_⟩
              · intro n hn
                have h2 := hshr3 n hn
                have h1 := hshr2 n h2
                rw [setParent_color] at h1
                exact h1
              · intro n hn
                apply hgrow3
                apply hgrow2
                rw [setParent_color]
                exact hn
              · intro n hn
                have hnv : n ≠ v := fun he => by rw [he, hv0] at hn; exact hn rfl
                have h1 : (setParent s v u).color n ≠ 0 := by
                  rw [setParent_color]; exact hn
                have h2 : s2.color n ≠ 0 := by
                  intro hw
                  exact h1 (by rw [setParent_color] at *; exact hshr2 n hw)
                rw [hpst3 n h2, hpst2 n h1, setParent_parent, if_neg hnv]
              · intro x hx
                rcases List.mem_cons.mp hx with rfl | hx
                · exact hgrow3 x hvblack
                · exact hrestblack x hx
        · by_cases hv1 : s.color v = 1
          · -- gray child: a cycle closes
            have hvmem : v ∈ u :: D := (hgIff v).mp hv1
            have hlenD : (u :: D).length ≤ g.nodes_in_order.length + 1 := by
              have := nodup_subset_length (u :: D) g.nodes_in_order hnd hsub
              omega
            obtain ⟨cyc, hwalk, hcyc, -⟩ := walkCycle_spec g s v D u
              (g.nodes_in_order.length + 1) [v] hch
              (by rcases List.mem_cons.mp hvmem with h | h
                  · exact Or.inl h
                  · exact Or.inr h)
              hlenD rfl (List.chain'_singleton _)
              (by intro la hla; simp at hla; subst hla; exact hedge)
            refine ⟨s, some cyc, ?_, ?_, by simp⟩
            · simp only [dfsRun]
              rw [if_neg (by rw [hv1]; omega), if_pos hv1, hwalk]
            · intro c hc
              cases hc
              exact hcyc
          · -- black child: skip
            have hv2 : s.color v = 2 := by
              have := hrange v
              omega
            have hkpre2 : KidsPre g u rest' s D F :=
              ⟨⟨hgIff, hnd, hsub, hch⟩, hfin, hwp, hrange, humem,
                fun w hw => hkids w (by simp [hw])⟩
            have hfuel3 : rest'.length + 1 + whiteCount g s * (CLen g + 2)
                ≤ fuel := by
              simp only [List.length_cons] at hfuel
              omega
            obtain ⟨s3, res3, hrun3, hsound3, hpost3⟩ :=
              ihk u rest' s D F hkpre2 hfuel3
            refine ⟨s3, res3, ?_, hsound3, ?_⟩
            · simp only [dfsRun]
              rw [if_neg hv0, if_neg hv1]
              exact hrun3
            · intro hres3
              obtain ⟨hdp, hrestblack⟩ := hpost3 hres3
              refine ⟨hdp, ?_⟩
              intro x hx
              rcases List.mem_cons.mp hx with rfl | hx
              · exact hdp.2.2.2.1 x hv2
              · exact hrestblack x hx

theorem detectLoop_spec (g : Graph) (hwf : GraphWF g) :
    ∀ (L : List String) (s : DfsState), (∀ n ∈ L, n ∈ g.nodes_in_order) →
    OuterInv g s →
    ∃ r, detectLoop g L s = some r ∧
      (∀ cyc, r = some cyc → IsCyclePath g cyc) ∧
      (r = none → ∃ s', OuterInv g s' ∧ (∀ n ∈ L, s'.color n = 2) ∧
        (∀ n, s.color n = 2 → s'.color n = 2)) := by
  intro L
  induction L with
  | nil =>
    intro s _ hinv
    exact ⟨none, rfl, by simp, fun _ => ⟨s, hinv, by simp, fun n h => h⟩⟩
  | cons n rest ih =>
    intro s hsub hinv
    obtain ⟨hgray, ⟨F, hfin⟩, hwp, hrange⟩ := hinv
    by_cases hn0 : s.color n = 0
    · have hnN : n ∈ g.nodes_in_order := hsub n (by simp)
      have hvpre : VisitPre g n s [] F := by
        refine ⟨hgray, hfin, fun m _ hm => hwp m hm, hrange, hn0, hnN, ?_, ?_⟩
        · exact hwp n hn0
        · intro w hw
          simp at hw
      have hfuel : whiteCount g s * (CLen g + 2) ≤ dfsFuel g := by
        have h1 := whiteCount_le g s
        have h2 : whiteCount g s * (CLen g + 2) ≤
            (g.nodes_in_order.length + 1) * (CLen g + 2) :=
          Nat.mul_le_mul_right _ (by omega)
        have h3 : dfsFuel g = (g.nodes_in_order.length + 1) * (CLen g + 2) + 1 :=
          rfl
        omega
      obtain ⟨s', res, hrun, hsound, hpost⟩ :=
        (dfsRun_spec g hwf (dfsFuel g)).1 n s [] F hvpre hfuel
      cases res with
      | some cyc =>
        refine ⟨some cyc, ?_, ?_, by simp⟩
        · simp only [detectLoop]
          rw [if_pos hn0, hrun]
        · intro c hc
          cases hc
          exact hsound cyc rfl
      | none =>
        obtain ⟨⟨hgray', hF', hshr', hgrow', hwp', hrng', -⟩, hnb⟩ := hpost rfl
        obtain ⟨r, hloop, hsound2, hfin2⟩ :=
          ih s' (fun m hm => hsub m (by simp [hm])) ⟨hgray', hF', hwp', hrng'⟩
        refine ⟨r, ?_, hsound2, ?_⟩
        · simp only [detectLoop]
          rw [if_pos hn0, hrun]
          exact hloop
        · intro hr
          obtain ⟨s2, hinv2, hblack2, hmono2⟩ := hfin2 hr
          refine ⟨s2, hinv2, ?_, fun m hm => hmono2 m (hgrow' m hm)⟩
          intro m hm
          rcases List.mem_cons.mp hm with rfl | hm
          · exact hmono2 m hnb
          · exact hblack2 m hm
    · obtain ⟨r, hloop, hsound2, hfin2⟩ :=
        ih s (fun m hm => hsub m (by simp [hm])) ⟨hgray, ⟨F, hfin⟩, hwp, hrange⟩
      refine ⟨r, ?_, hsound2, ?_⟩
      · simp only [detectLoop]
        rw [if_neg hn0]
        exact hloop
      · intro hr
        obtain ⟨s2, hinv2, hblack2, hmono2⟩ := hfin2 hr
        refine ⟨s2, hinv2, ?_, hmono2⟩
        intro m hm
        rcases List.mem_cons.mp hm with rfl | hm
        · have h2 : s.color m = 2 := by
            have hr3 := hrange m
            have h1 : s.color m ≠ 1 := fun he => by
              have := (hgray.1 m).mp he
              simp at this
            omega
          exact hmono2 m h2
        · exact hblack2 m hm

theorem detect_cycle_cases (g : Graph) (hwf : GraphWF g) :
    (∃ cyc, detect_cycle g = some cyc ∧ IsCyclePath g cyc) ∨
    (detect_cycle g = none ∧ ∃ f, IsTopo g f ∧
      ∀ n ∈ g.nodes_in_order, f n < g.nodes_in_order.length) := by
  have hinv0 : OuterInv g initDfsState := by
    refine ⟨⟨?_, List.nodup_nil, by simp, List.chain'_nil⟩,
      ⟨[], ?_, List.nodup_nil, by simp, by simp⟩, fun n _ => rfl, fun n => ?_⟩
    · intro n
      show (0 : Nat) = 1 ↔ n ∈ ([] : List String)
      simp
    · intro n
      show (0 : Nat) = 2 ↔ n ∈ ([] : List String)
      simp
    · show (0 : Nat) ≤ 2
      omega
  obtain ⟨r, hloop, hsound, hpostn⟩ :=
    detectLoop_spec g hwf g.nodes_in_order initDfsState (fun n h => h) hinv0
  cases r with
  | some cyc =>
    left
    refine ⟨cyc, ?_, hsound cyc rfl⟩
    unfold detect_cycle
    rw [hloop]
  | none =>
    right
    constructor
    · unfold detect_cycle
      rw [hloop]
    · obtain ⟨s', hinv', hblackAll, -⟩ := hpostn rfl
      obtain ⟨-, ⟨F, hbIff, hFnd, hFsub, hFord⟩, -, -⟩ := hinv'
      refine ⟨fun n => F.indexOf n, ?_, ?_⟩
      · intro u v he
        have hne : childrenD g u ≠ [] := fun hnil => by
          have he' : v ∈ childrenD g u := he
          rw [hnil] at he'
          cases he'
        have huN : u ∈ g.nodes_in_order := edge_src_mem g hwf u hne
        have huF : u ∈ F := (hbIff u).mp (hblackAll u huN)
        exact (hFord u huF v he).2
      · intro n hn
        show F.indexOf n < g.nodes_in_order.length
        have hnF : n ∈ F := (hbIff n).mp (hblackAll n hn)
        have h1 : F.indexOf n < F.length := (List.indexOf_lt_length).mpr hnF
        have h2 : F.length ≤ g.nodes_in_order.length :=
          nodup_subset_length F g.nodes_in_order hFnd hFsub
        omega

theorem chain_getLast_lt (f : String → Nat) :
    ∀ (t : List String) (a : String),
    List.Chain' (fun x y => f y < f x) (a :: t) →
    ∀ l, (a :: t).getLast? = some l → f l ≤ f a ∧ (t ≠ [] → f l < f a) := by
  intro t
  induction t with
  | nil =>
    intro a _ l hl
    simp at hl
    subst hl
    exact ⟨le_refl _, fun h => absurd rfl h⟩
  | cons b t' ih =>
    intro a hch l hl
    obtain ⟨hab, hch'⟩ := List.chain'_cons.mp hch
    rw [List.getLast?_cons_cons] at hl
    obtain ⟨hle, -⟩ := ih b hch' l hl
    exact ⟨le_of_lt (lt_of_le_of_lt hle hab), fun _ => lt_of_le_of_lt hle hab⟩

theorem topo_no_cycle (g : Graph) (f : String → Nat) (ht : IsTopo g f) :
    ¬ HasCycle g := by
  rintro ⟨p, hlen, hhl, hch⟩
  cases p with
  | nil => simp at hlen
  | cons a t =>
    cases t with
    | nil => simp at hlen
    | cons b t' =>
      have hch2 : List.Chain' (fun x y => f y < f x) (a :: b :: t') :=
        List.Chain'.imp (fun x y hxy => ht x y hxy) hch
      have hhead : (a :: b :: t').head? = some a := rfl
      rw [hhead] at hhl
      obtain ⟨-, hstrict⟩ := chain_getLast_lt f (b :: t') a hch2 a hhl.symm
      exact absurd (hstrict (by simp)) (lt_irrefl _)

/-- C1: over any parsed graph, `detect_cycle` either returns a path of
length at least two whose first and last nodes coincide with every
consecutive pair a directed edge, or returns `none`, and it returns `none`
exactly when the graph has no directed cycle. -/
theorem claim_C1_detect_cycle (text : String) :
    (∀ cyc, detect_cycle (parse_mermaid text) = some cyc →
      IsCyclePath (parse_mermaid text) cyc) ∧
    (detect_cycle (parse_mermaid text) = none ↔
      ¬ HasCycle (parse_mermaid text)) := by
  have hwf := parse_mermaid_wf text
  rcases detect_cycle_cases (parse_mermaid text) hwf with
    ⟨cyc, hc, hcyc⟩ | ⟨hn, f, ht, -⟩
  · refine ⟨?_, ?_, ?_⟩
    · intro c hc2
      rw [hc] at hc2
      cases hc2
      exact hcyc
    · intro h
      rw [hc] at h
      cases h
    · intro h
      exact absurd ⟨cyc, hcyc⟩ h
  · refine ⟨?_, fun _ => topo_no_cycle _ f ht, fun _ => hn⟩
    intro c hc2
    rw [hn] at hc2
    cases hc2

theorem claim_C1_detect_cycle_witness :
    (∀ cyc, detect_cycle (parse_mermaid "A --> B\nB --> A") = some cyc →
      IsCyclePath (parse_mermaid "A --> B\nB --> A") cyc) ∧
    (detect_cycle (parse_mermaid "A --> B\nB --> A") = none ↔
      ¬ HasCycle (parse_mermaid "A --> B\nB --> A")) :=
  claim_C1_detect_cycle "A --> B\nB --> A"

/-- A graph whose `detect_cycle` comes back empty is acyclic. -/
theorem detect_none_imp_acyclic (g : Graph) (hwf : GraphWF g)
    (h : detect_cycle g = none) : ¬ HasCycle g := by
  rcases detect_cycle_cases g hwf with ⟨cyc, hc, -⟩ | ⟨-, f, ht, -⟩
  · rw [hc] at h
    cases h
  · exact topo_no_cycle g f ht

/-- An acyclic well-formed graph carries a strict topological measure
bounded by the number of nodes. -/
theorem acyclic_topo_bound (g : Graph) (hwf : GraphWF g)
    (hacyc : ¬ HasCycle g) : ∃ f, IsTopo g f ∧
    ∀ n ∈ g.nodes_in_order, f n < g.nodes_in_order.length := by
  rcases detect_cycle_cases g hwf with ⟨cyc, -, hcyc⟩ | ⟨-, f, ht, hb⟩
  · exact absurd ⟨cyc, hcyc⟩ hacyc
  · exact ⟨f, ht, hb⟩

/-! ## Totality and shape of `build_node` / `build_tree` on a DAG -/

theorem nPaths_congr (g : Graph) (f : String → Nat) (ht : IsTopo g f) :
    ∀ fuel fuel' n l, f n < fuel → f n < fuel' →
    nPaths g fuel n l = nPaths g fuel' n l := by
  intro fuel
  induction fuel with
  | zero =>
    intro fuel' n l h
    omega
  | succ fu ih =>
    intro fuel' n l h h'
    cases fuel' with
    | zero => omega
    | succ fu' =>
      simp only [nPaths]
      by_cases hck : childrenD g n = []
      · rw [if_pos hck, if_pos hck]
      · rw [if_neg hck, if_neg hck]
        congr 1
        refine List.map_congr_left ?_
        intro c hcm
        have hfc : f c < f n := ht n c hcm
        exact ih fu' c l (by omega) (by omega)

theorem buildRun_total (g : Graph) (f : String → Nat) (ht : IsTopo g f) :
    ∀ fuel : Nat,
    (∀ n, (f n + 1) * (CLen g + 2) ≤ fuel →
      ∃ t, buildRun g fuel (.node n) = some (.inl t) ∧ validNode t = true ∧
        ∀ l, countNode l t =
          ((childrenD g n).map (fun c => nPaths g (f n) c l)).sum) ∧
    (∀ n rest, (∀ c ∈ rest, c ∈ childrenD g n) →
      rest.length + 1 + f n * (CLen g + 2) ≤ fuel →
      ∃ opts, buildRun g fuel (.opts n rest) = some (.inr opts) ∧
        validOptsList opts = true ∧
        ∀ l, countOptsList l opts =
          (rest.map (fun c => nPaths g (f n) c l)).sum) := by
  intro fuel
  induction fuel with
  | zero =>
    constructor
    · intro n hf
      have h2 : 1 * 2 ≤ (f n + 1) * (CLen g + 2) :=
        Nat.mul_le_mul (by omega) (by omega)
      omega
    · intro n rest _ hf
      omega
  | succ fuel ih =>
    obtain ⟨ihn, ihk⟩ := ih
    constructor
    · -- node case
      intro n hf
      have hlen := childrenD_length_le g n
      have hfuel2 : (childrenD g n).length + 1 + f n * (CLen g + 2) ≤ fuel := by
        have hsplit : (f n + 1) * (CLen g + 2) =
            f n * (CLen g + 2) + (CLen g + 2) := by ring
        omega
      obtain ⟨opts, hrun, hvalid, hcount⟩ :=
        ihk n (childrenD g n) (fun c hc => hc) hfuel2
      refine ⟨.mk n (nodeHtmlD g n) (strip_html_for_plain (nodeHtmlD g n))
        opts, ?_, ?_, ?_⟩
      · simp only [buildRun]
        rw [hrun]
      · simpa [validNode] using hvalid
      · intro l
        simpa [countNode] using hcount l
    · -- kids case
      intro n rest hsub hfl
      cases rest with
      | nil =>
        refine ⟨[], by simp [buildRun], rfl, ?_⟩
        intro l
        simp [countOptsList]
      | cons c rest' =>
        have hc : c ∈ childrenD g n := hsub c (by simp)
        have hfc : f c < f n := ht n c hc
        have hfn1 : 1 ≤ f n := by omega
        have hfuelr : rest'.length + 1 + f n * (CLen g + 2) ≤ fuel := by
          simp only [List.length_cons] at hfl
          omega
        obtain ⟨opts, hrun, hval, hcnt⟩ :=
          ihk n rest' (fun x hx => hsub x (by simp [hx])) hfuelr
        obtain ⟨m, hm⟩ : ∃ m, f n = m + 1 := ⟨f n - 1, by omega⟩
        by_cases hck : childrenD g c = []
        · -- childless child: terminal-result option
          refine ⟨resultOpt g n c :: opts, ?_, ?_, ?_⟩
          · simp only [buildRun]
            rw [if_neg (by simp [hck]), hrun]
            rfl
          · simp only [validOptsList, Bool.and_eq_true]
            refine ⟨?_, hval⟩
            simp [resultOpt, validOpt]
          · intro l
            simp only [countOptsList, List.map_cons, List.sum_cons]
            rw [hcnt l]
            congr 1
            show countOpt l (resultOpt g n c) = nPaths g (f n) c l
            rw [hm]
            simp only [resultOpt, countOpt, nPaths, if_pos hck,
              Option.isSome_some, true_and]
            by_cases hcl : c = l
            · simp [hcl]
            · simp [hcl]
        · -- child with children: recurse into it
          have hfuelc : (f c + 1) * (CLen g + 2) ≤ fuel := by
            have hmono : (f c + 1) * (CLen g + 2) ≤ f n * (CLen g + 2) :=
              Nat.mul_le_mul (by omega) (by omega)
            simp only [List.length_cons] at hfl
            omega
          obtain ⟨sub, hrunc, hvalc, hcntc⟩ := ihn c hfuelc
          refine ⟨branchOpt g n c sub :: opts, ?_, ?_, ?_⟩
          · simp only [buildRun]
            rw [if_pos (by simp [hck]), hrunc, hrun]
            rfl
          · simp only [validOptsList, Bool.and_eq_true]
            refine ⟨?_, hval⟩
            simp [branchOpt, validOpt, hvalc]
          · intro l
            simp only [countOptsList, List.map_cons, List.sum_cons]
            rw [hcnt l]
            congr 1
            show countOpt l (branchOpt g n c sub) = nPaths g (f n) c l
            simp only [branchOpt, countOpt, Option.isSome_none,
              Bool.false_eq_true, false_and, if_false]
            rw [hcntc l, hm]
            simp only [nPaths, if_neg hck, Nat.zero_add]
            congr 1
            refine List.map_congr_left ?_
            intro d hdm
            have hfd : f d < f c := ht c d hdm
            exact nPaths_congr g f ht (f c) m d l hfd (by omega)

/-- A per-root child-sum of `nPaths` is that root's `nEdgePaths` at the
canonical fuel `|nodes|`. -/
theorem sum_nPaths_to_nEdgePaths (g : Graph) (hwf : GraphWF g)
    (f : String → Nat) (ht : IsTopo g f)
    (hbnd : ∀ n ∈ g.nodes_in_order, f n < g.nodes_in_order.length)
    (r l : String) :
    ((childrenD g r).map (fun c => nPaths g (f r) c l)).sum =
      nEdgePaths g g.nodes_in_order.length r l := by
  simp only [nEdgePaths]
  by_cases hck : childrenD g r = []
  · rw [if_pos hck, hck]
    simp
  · rw [if_neg hck]
    refine congrArg List.sum (List.map_congr_left ?_)
    intro c hcm
    have hfc : f c < f r := ht r c hcm
    have hcN : c ∈ g.nodes_in_order := childrenD_subset_nodes g hwf r c hcm
    exact nPaths_congr g f ht (f r) g.nodes_in_order.length c l hfc
      (hbnd c hcN)

/-- The option list `build_tree` assembles for multiple roots: one option
per root in order, each wrapping that root's compiled subtree, every
option valid, the result-counts summing the roots' edge-path counts. -/
theorem synthOpts_total (g : Graph) (hwf : GraphWF g) (f : String → Nat)
    (ht : IsTopo g f)
    (hbnd : ∀ n ∈ g.nodes_in_order, f n < g.nodes_in_order.length)
    (fuel : Nat) :
    ∀ L : List String, (∀ r ∈ L, (f r + 1) * (CLen g + 2) ≤ fuel) →
    ∃ opts, synthOpts g fuel L = some opts ∧
      opts.map TreeOpt.nextNodeId = L ∧
      (∀ o ∈ opts, o.next = buildNode g fuel o.nextNodeId ∧
        o.next.isSome = true) ∧
      validOptsList opts = true ∧
      ∀ l, countOptsList l opts = (L.map (fun r =>
        nEdgePaths g g.nodes_in_order.length r l)).sum := by
  intro L
  induction L with
  | nil => exact fun _ => ⟨[], rfl, rfl, by simp, rfl, by intro l; rfl⟩
  | cons r rest ih =>
    intro hb
    obtain ⟨t, hrt, hvalt, hcntt⟩ :=
      (buildRun_total g f ht fuel).1 r (hb r (by simp))
    have hbn : buildNode g fuel r = some t := by
      unfold buildNode
      rw [hrt]
    obtain ⟨opts, hrun, hmap, hnext, hval, hcnt⟩ :=
      ih (fun x hx => hb x (by simp [hx]))
    refine ⟨rootOpt g r t :: opts, ?_, ?_, ?_, ?_, ?_⟩
    · simp only [synthOpts]
      rw [hbn, hrun]
      rfl
    · simp only [List.map_cons]
      rw [hmap]
      rfl
    · intro o ho
      rcases List.mem_cons.mp ho with rfl | ho
      · refine ⟨?_, rfl⟩
        show (rootOpt g r t).next = buildNode g fuel r
        rw [hbn]
        rfl
      · exact hnext o ho
    · simp only [validOptsList, Bool.and_eq_true]
      refine ⟨?_, hval⟩
      simp [rootOpt, validOpt, hvalt]
    · intro l
      simp only [countOptsList, List.map_cons, List.sum_cons]
      rw [hcnt l]
      congr 1
      show countOpt l (rootOpt g r t) = nEdgePaths g g.nodes_in_order.length r l
      have hco : countOpt l (rootOpt g r t) = countNode l t := by
        simp [rootOpt, countOpt]
      rw [hco, hcntt l]
      exact sum_nPaths_to_nEdgePaths g hwf f ht hbnd r l

/-- C7: on an acyclic parsed graph with two or more in-degree-zero nodes,
`build_tree` returns a synthetic start node asking
"Where do you want to start?" whose options list the roots in first-seen
order, each carrying that root's recursively compiled subtree as its
nested continuation. -/
theorem claim_C7_multi_root (text : String)
    (hacyc : ¬ HasCycle (parse_mermaid text))
    (hroots : 2 ≤ (top_nodes (parse_mermaid text)).length) :
    ∃ t, build_tree (parse_mermaid text) = some t ∧
      t.nodeId = "__synthetic_start__" ∧
      t.questionText = "Where do you want to start?" ∧
      t.options.map TreeOpt.nextNodeId = top_nodes (parse_mermaid text) ∧
      ∀ o ∈ t.options,
        o.next = buildNode (parse_mermaid text)
          (buildFuel (parse_mermaid text)) o.nextNodeId ∧
        o.next.isSome = true := by
  have hwf := parse_mermaid_wf text
  obtain ⟨f, ht, hbnd⟩ := acyclic_topo_bound (parse_mermaid text) hwf hacyc
  have hb : ∀ r ∈ top_nodes (parse_mermaid text),
      (f r + 1) * (CLen (parse_mermaid text) + 2) ≤
        buildFuel (parse_mermaid text) := by
    intro r hrm
    have hrN : r ∈ (parse_mermaid text).nodes_in_order :=
      (List.mem_filter.mp hrm).1
    have h1 := hbnd r hrN
    have h2 : (f r + 1) * (CLen (parse_mermaid text) + 2) ≤
        (parse_mermaid text).nodes_in_order.length *
          (CLen (parse_mermaid text) + 2) :=
      Nat.mul_le_mul (by omega) (by omega)
    have h3 : buildFuel (parse_mermaid text) =
        ((parse_mermaid text).nodes_in_order.length + 1) *
          (CLen (parse_mermaid text) + 2) + 1 := rfl
    have h4 : (parse_mermaid text).nodes_in_order.length *
        (CLen (parse_mermaid text) + 2) ≤
        ((parse_mermaid text).nodes_in_order.length + 1) *
          (CLen (parse_mermaid text) + 2) :=
      Nat.mul_le_mul (by omega) (by omega)
    omega
  obtain ⟨opts, hsyn, hmap, hnext, -, -⟩ :=
    synthOpts_total (parse_mermaid text) hwf f ht hbnd
      (buildFuel (parse_mermaid text)) (top_nodes (parse_mermaid text)) hb
  refine ⟨.mk "__synthetic_start__" "Where do you want to start?"
    "Where do you want to start?" opts, ?_, rfl, rfl, ?_, ?_⟩
  · rcases hr : top_nodes (parse_mermaid text) with _ | ⟨a, _ | ⟨b, L⟩⟩
    · rw [hr] at hroots
      simp at hroots
    · rw [hr] at hroots
      simp at hroots
    · rw [hr] at hsyn
      simp only [build_tree]
      rw [hr, hsyn]
  · simpa [TreeNode.options] using hmap
  · intro o ho
    exact hnext o (by simpa [TreeNode.options] using ho)

theorem claim_C7_multi_root_witness :
    ∃ t, build_tree (parse_mermaid "A --> B\nC --> D") = some t ∧
      t.nodeId = "__synthetic_start__" ∧
      t.questionText = "Where do you want to start?" ∧
      t.options.map TreeOpt.nextNodeId =
        top_nodes (parse_mermaid "A --> B\nC --> D") ∧
      ∀ o ∈ t.options,
        o.next = buildNode (parse_mermaid "A --> B\nC --> D")
          (buildFuel (parse_mermaid "A --> B\nC --> D")) o.nextNodeId ∧
        o.next.isSome = true :=
  claim_C7_multi_root "A --> B\nC --> D"
    (detect_none_imp_acyclic _ (by decide) (by decide)) (by decide)

/-- C2's counterexample: the one-node graph `A["x"]` is acyclic with root
and leaf `A`, the compiled tree holds no terminal result for `A`, yet
there is exactly one (trivial) root-to-leaf path. -/
theorem claim_C2_counterexample :
    detect_cycle (parse_mermaid "A[\x22x\x22]") = none ∧
    top_nodes (parse_mermaid "A[\x22x\x22]") = ["A"] ∧
    find_leaves (parse_mermaid "A[\x22x\x22]") = ["A"] ∧
    (build_tree (parse_mermaid "A[\x22x\x22]")).map
      (fun t => countNode "A" t) = some 0 ∧
    nPaths (parse_mermaid "A[\x22x\x22]")
      (parse_mermaid "A[\x22x\x22]").nodes_in_order.length "A" "A" = 1 := by
  decide

/-- C2 (amended): on an acyclic parsed graph with at least one root,
`build_tree` succeeds, every option of the tree carries exactly one of a
nested continuation and a terminal result, and each node id appears as a
terminal result once per root-to-leaf path that traverses at least one
edge (the original claim also counted the trivial path of a childless
root, which yields no terminal result). -/
theorem claim_C2_amended (text : String)
    (hacyc : ¬ HasCycle (parse_mermaid text))
    (hroot : top_nodes (parse_mermaid text) ≠ []) :
    ∃ t, build_tree (parse_mermaid text) = some t ∧ validNode t = true ∧
      ∀ l, countNode l t =
        ((top_nodes (parse_mermaid text)).map (fun r =>
          nEdgePaths (parse_mermaid text)
            (parse_mermaid text).nodes_in_order.length r l)).sum := by
  have hwf := parse_mermaid_wf text
  obtain ⟨f, ht, hbnd⟩ := acyclic_topo_bound (parse_mermaid text) hwf hacyc
  have hb : ∀ r ∈ top_nodes (parse_mermaid text),
      (f r + 1) * (CLen (parse_mermaid text) + 2) ≤
        buildFuel (parse_mermaid text) := by
    intro r hrm
    have hrN : r ∈ (parse_mermaid text).nodes_in_order :=
      (List.mem_filter.mp hrm).1
    have h1 := hbnd r hrN
    have h2 : (f r + 1) * (CLen (parse_mermaid text) + 2) ≤
        (parse_mermaid text).nodes_in_order.length *
          (CLen (parse_mermaid text) + 2) :=
      Nat.mul_le_mul (by omega) (by omega)
    have h3 : buildFuel (parse_mermaid text) =
        ((parse_mermaid text).nodes_in_order.length + 1) *
          (CLen (parse_mermaid text) + 2) + 1 := rfl
    have h4 : (parse_mermaid text).nodes_in_order.length *
        (CLen (parse_mermaid text) + 2) ≤
        ((parse_mermaid text).nodes_in_order.length + 1) *
          (CLen (parse_mermaid text) + 2) :=
      Nat.mul_le_mul (by omega) (by omega)
    omega
  rcases hr : top_nodes (parse_mermaid text) with _ | ⟨a, _ | ⟨b, L⟩⟩
  · exact absurd hr hroot
  · -- single root: build_tree is build_node of the root
    obtain ⟨t, hrt, hvalt, hcntt⟩ :=
      (buildRun_total (parse_mermaid text) f ht
        (buildFuel (parse_mermaid text))).1 a (hb a (by rw [hr]; simp))
    refine ⟨t, ?_, hvalt, ?_⟩
    · simp only [build_tree]
      rw [hr]
      show buildNode (parse_mermaid text) (buildFuel (parse_mermaid text)) a
        = some t
      unfold buildNode
      rw [hrt]
    · intro l
      simp only [List.map_cons, List.map_nil, List.sum_cons, List.sum_nil,
        Nat.add_zero]
      rw [hcntt l]
      exact sum_nPaths_to_nEdgePaths (parse_mermaid text) hwf f ht hbnd a l
  · -- several roots: the synthetic start node aggregates them
    obtain ⟨opts, hsyn, -, -, hval, hcnt⟩ :=
      synthOpts_total (parse_mermaid text) hwf f ht hbnd
        (buildFuel (parse_mermaid text)) (top_nodes (parse_mermaid text)) hb
    rw [hr] at hsyn
    refine ⟨.mk "__synthetic_start__" "Where do you want to start?"
      "Where do you want to start?" opts, ?_, ?_, ?_⟩
    · simp only [build_tree]
      rw [hr, hsyn]
    · simpa [validNode] using hval
    · intro l
      rw [hr] at hcnt
      simpa [countNode] using hcnt l

theorem claim_C2_amended_witness :
    ∃ t, build_tree (parse_mermaid "A --> B") = some t ∧
      validNode t = true ∧
      ∀ l, countNode l t =
        ((top_nodes (parse_mermaid "A --> B")).map (fun r =>
          nEdgePaths (parse_mermaid "A --> B")
            (parse_mermaid "A --> B").nodes_in_order.length r l)).sum :=
  claim_C2_amended "A --> B"
    (detect_none_imp_acyclic _ (by decide) (by decide)) (by decide)

/-! ## The leaf-set fix-point (C8) -/

theorem leafPassAux_true (g : Graph) (S : String → Finset String)
    (l : List String) : (leafPassAux g S true l).2 = true := by
  induction l generalizing S with
  | nil => rfl
  | cons n rest ih =>
    simp only [leafPassAux]
    split
    · exact ih S
    · split
      · exact ih _
      · exact ih S

theorem leafPassAux_nochange (g : Graph) (S : String → Finset String)
    (ch : Bool) (l : List String) (S' : String → Finset String)
    (h : leafPassAux g S ch l = (S', false)) :
    S' = S ∧ ch = false ∧
    ∀ n ∈ l, childrenD g n ≠ [] →
      leafUnion S (childrenD g n) = ∅ ∨ leafUnion S (childrenD g n) = S n := by
  induction l generalizing S ch with
  | nil =>
    simp only [leafPassAux] at h
    obtain ⟨h1, h2⟩ := Prod.mk.injEq .. ▸ h
    exact ⟨h1.symm, h2.symm ▸ rfl, by simp⟩
  | cons n rest ih =>
    simp only [leafPassAux] at h
    split at h
    · rename_i hkids
      obtain ⟨h1, h2, h3⟩ := ih S ch h
      refine ⟨h1, h2, ?_⟩
      intro m hm hk
      rcases List.mem_cons.mp hm with rfl | hm
      · exact absurd hkids hk
      · exact h3 m hm hk
    · rename_i hkids
      split at h
      · have := leafPassAux_true g
          (fun m => if m = n then leafUnion S (childrenD g n) else S m) rest
        rw [h] at this
        simp at this
      · rename_i hguard
        obtain ⟨h1, h2, h3⟩ := ih S ch h
        push_neg at hguard
        refine ⟨h1, h2, ?_⟩
        intro m hm hk
        rcases List.mem_cons.mp hm with rfl | hm
        · by_cases he : leafUnion S (childrenD g m) = ∅
          · exact Or.inl he
          · exact Or.inr (hguard he)
        · exact h3 m hm hk

theorem leafLoop_fix (g : Graph) (fuel : Nat) (S S' : String → Finset String)
    (h : leafLoop g fuel S = some S') :
    leafPassAux g S' false g.nodes_in_order.reverse = (S', false) := by
  induction fuel generalizing S with
  | zero => simp [leafLoop] at h
  | succ fuel ih =>
    simp only [leafLoop] at h
    rcases hp : leafPassAux g S false g.nodes_in_order.reverse with ⟨S1, b⟩
    rw [hp] at h
    cases b
    · simp only [Option.some.injEq] at h
      subst h
      obtain ⟨h1, -, -⟩ := leafPassAux_nochange g S false _ S1 hp
      rw [h1] at hp ⊢
      exact hp
    · exact ih _ h

/-- C8 as stated is false: with the (allowed) leaf list `["n"]` on the graph
`n --> m, m --> m`, the computed mapping keeps `{n}` at `n`, but one
unconditional extra pass (set every node with children to the union of its
children's sets) resets `n`'s set to the empty union. -/
theorem claim_C8_counterexample :
    (compute_leaf_sets (parse_mermaid "n --> m\nm --> m") ["n"]).map
      (fun S => decide
        (uncondPass (parse_mermaid "n --> m\nm --> m") S "n" = S "n"))
      = some false := by decide

/-- C8 amended: for every graph and leaf list on which `compute_leaf_sets`
returns a mapping, one additional full pass of the loop's own body — which
replaces a non-leaf node's set by the union of its children's sets only
when that union is non-empty — changes no node's set (and for every
non-leaf node the union of its children's sets is empty or equals the
node's set). -/
theorem claim_C8_amended (g : Graph) (leaves : List String)
    (S : String → Finset String) (h : compute_leaf_sets g leaves = some S) :
    guardedPass g S = S ∧
    ∀ n ∈ g.nodes_in_order, childrenD g n ≠ [] →
      leafUnion S (childrenD g n) = ∅ ∨ leafUnion S (childrenD g n) = S n := by
  simp only [compute_leaf_sets] at h
  split at h
  · have hfix := leafLoop_fix g _ _ S h
    constructor
    · unfold guardedPass
      rw [hfix]
    · intro n hn hk
      obtain ⟨-, -, h3⟩ := leafPassAux_nochange g S false _ S hfix
      exact h3 n (by simpa using hn) hk
  · cases h

/-- Witness for C8 amended at a concrete parsed graph. -/
theorem claim_C8_amended_witness :
    guardedPass (parse_mermaid "A --> B")
        ((compute_leaf_sets (parse_mermaid "A --> B") ["B"]).get (by decide))
      = (compute_leaf_sets (parse_mermaid "A --> B") ["B"]).get (by decide) :=
  (claim_C8_amended (parse_mermaid "A --> B") ["B"]
    ((compute_leaf_sets (parse_mermaid "A --> B") ["B"]).get (by decide))
    (Option.some_get _).symm).1

/-- Witness for C6 amended at a concrete image-only label. -/
theorem claim_C6_amended_witness :
    parse_edge_label "<img src='x.png'>" "fb" =
      ⟨orS (strip_html_for_plain "fb") "fb", "",
        orS (strip_html_for_plain "fb") "fb",
        (extract_first_img_tag (mmd_label_to_html "<img src='x.png'>")).getD "",
        if (extract_first_img_tag (mmd_label_to_html "<img src='x.png'>")).getD ""
            ≠ "" then
          extract_img_src
            ((extract_first_img_tag (mmd_label_to_html "<img src='x.png'>")).getD "")
        else ""⟩ :=
  claim_C6_amended "<img src='x.png'>" "fb" (by decide)

/-! ## Totality and non-emptiness of the leaf-set fix-point -/

theorem foldl_union_acc_subset (S : String → Finset String) :
    ∀ (kids : List String) (acc : Finset String),
    acc ⊆ kids.foldl (fun a c => a ∪ S c) acc := by
  intro kids
  induction kids with
  | nil => intro acc; exact fun x hx => hx
  | cons k rest ih =>
    intro acc
    exact fun x hx => ih (acc ∪ S k) (Finset.mem_union_left _ hx)

theorem subset_leafUnion (S : String → Finset String) :
    ∀ (kids : List String) (acc : Finset String) (c : String), c ∈ kids →
    S c ⊆ kids.foldl (fun a x => a ∪ S x) acc := by
  intro kids
  induction kids with
  | nil => intro acc c hc; cases hc
  | cons k rest ih =>
    intro acc c hc
    rcases List.mem_cons.mp hc with rfl | hc
    · exact fun x hx => foldl_union_acc_subset S rest (acc ∪ S c)
        (Finset.mem_union_right _ hx)
    · exact ih (acc ∪ S k) c hc

theorem leafUnion_subset (S : String → Finset String) (B : Finset String) :
    ∀ (kids : List String) (acc : Finset String), acc ⊆ B →
    (∀ c ∈ kids, S c ⊆ B) → kids.foldl (fun a c => a ∪ S c) acc ⊆ B := by
  intro kids
  induction kids with
  | nil => intro acc hacc _; exact hacc
  | cons k rest ih =>
    intro acc hacc hc
    refine ih (acc ∪ S k) ?_ (fun x hx => hc x (by simp [hx]))
    exact Finset.union_subset hacc (hc k (by simp))

theorem leafUnion_mono (S S' : String → Finset String)
    (hm : ∀ m, S m ⊆ S' m) :
    ∀ (kids : List String) (acc acc' : Finset String), acc ⊆ acc' →
    kids.foldl (fun a c => a ∪ S c) acc ⊆
      kids.foldl (fun a c => a ∪ S' c) acc' := by
  intro kids
  induction kids with
  | nil => intro acc acc' h; exact h
  | cons k rest ih =>
    intro acc acc' h
    refine ih (acc ∪ S k) (acc' ∪ S' k) ?_
    exact Finset.union_subset_union h (hm k)

/-- Total size of the leaf sets over the node list, the loop's potential. -/
theorem sumcard_mono (N : List String) (S S' : String → Finset String)
    (hm : ∀ m, S m ⊆ S' m) :
    (N.map (fun n => (S n).card)).sum ≤ (N.map (fun n => (S' n).card)).sum := by
  induction N with
  | nil => exact le_refl _
  | cons a rest ih =>
    simp only [List.map_cons, List.sum_cons]
    exact Nat.add_le_add (Finset.card_le_card (hm a)) ih

theorem sumcard_lt (N : List String) (S S' : String → Finset String)
    (hm : ∀ m, S m ⊆ S' m) (n : String) (hn : n ∈ N)
    (hstrict : (S n).card < (S' n).card) :
    (N.map (fun m => (S m).card)).sum < (N.map (fun m => (S' m).card)).sum := by
  induction N with
  | nil => cases hn
  | cons a rest ih =>
    simp only [List.map_cons, List.sum_cons]
    rcases List.mem_cons.mp hn with rfl | hn
    · exact Nat.add_lt_add_of_lt_of_le hstrict (sumcard_mono rest S S' hm)
    · exact Nat.add_lt_add_of_le_of_lt (Finset.card_le_card (hm a)) (ih hn)

theorem mapsum_le_mul (N : List String) (f : String → Nat) (K : Nat)
    (h : ∀ n ∈ N, f n ≤ K) : (N.map f).sum ≤ N.length * K := by
  induction N with
  | nil => simp
  | cons a rest ih =>
    simp only [List.map_cons, List.sum_cons, List.length_cons]
    have h1 := h a (by simp)
    have h2 := ih (fun n hn => h n (by simp [hn]))
    have h3 : (rest.length + 1) * K = rest.length * K + K := by ring
    omega

/-- Value of the initial map built from the leaf list. -/
theorem s0_spec :
    ∀ (L : List String) (S : String → Finset String) (m : String),
    (L.foldl (fun S lf => fun x => if x = lf then S x ∪ {lf} else S x) S) m =
      if m ∈ L then S m ∪ {m} else S m := by
  intro L
  induction L with
  | nil => intro S m; simp
  | cons lf rest ih =>
    intro S m
    simp only [List.foldl_cons]
    rw [ih]
    by_cases hm : m = lf
    · subst hm
      by_cases hr : m ∈ rest
      · simp [hr, Finset.union_assoc]
      · simp [hr]
    · by_cases hr : m ∈ rest
      · simp [hr, hm]
      · simp [hr, hm]

/-- One guarded pass: pointwise growth, preservation of the
subset-of-own-children-union invariant and of an upper bound, stability of
childless nodes, and a strict growth witness whenever the changed flag
comes out raised. -/
theorem leafPassAux_spec (g : Graph) (B : Finset String) :
    ∀ (L : List String) (S : String → Finset String) (ch : Bool),
    (∀ n, childrenD g n ≠ [] → S n ⊆ leafUnion S (childrenD g n)) →
    (∀ n, S n ⊆ B) →
    (∀ m, S m ⊆ (leafPassAux g S ch L).1 m) ∧
    (∀ n, childrenD g n ≠ [] →
      (leafPassAux g S ch L).1 n ⊆
        leafUnion (leafPassAux g S ch L).1 (childrenD g n)) ∧
    (∀ n, (leafPassAux g S ch L).1 n ⊆ B) ∧
    (∀ n, childrenD g n = [] → (leafPassAux g S ch L).1 n = S n) ∧
    ((leafPassAux g S ch L).2 = true → ch = true ∨
      ∃ n ∈ L, (S n).card < ((leafPassAux g S ch L).1 n).card) := by
  intro L
  induction L with
  | nil =>
    intro S ch hJ hUB
    exact ⟨fun m x hx => hx, hJ, hUB, fun n _ => rfl,
      fun h => Or.inl h, ⟩
  | cons n rest ih =>
    intro S ch hJ hUB
    by_cases hk : childrenD g n = []
    · have he : leafPassAux g S ch (n :: rest) = leafPassAux g S ch rest := by
        simp only [leafPassAux]
        rw [if_pos hk]
      rw [he]
      obtain ⟨h1, h2, h3, h4, h5⟩ := ih S ch hJ hUB
      refine ⟨h1, h2, h3, h4, ?_⟩
      intro hch
      rcases h5 hch with h | ⟨x, hx, hxc⟩
      · exact Or.inl h
      · exact Or.inr ⟨x, by simp [hx], hxc⟩
    · by_cases hg : leafUnion S (childrenD g n) ≠ ∅ ∧
          leafUnion S (childrenD g n) ≠ S n
      · have he : leafPassAux g S ch (n :: rest) = leafPassAux g
            (fun m => if m = n then leafUnion S (childrenD g n) else S m)
            true rest := by
          simp only [leafPassAux]
          rw [if_neg hk, if_pos hg]
        have hgrow1 : ∀ m, S m ⊆
            (fun m => if m = n then leafUnion S (childrenD g n) else S m) m := by
          intro m
          by_cases hm : m = n
          · subst hm
            simp only [if_pos rfl]
            exact hJ m hk
          · simp only [if_neg hm]
            exact fun x hx => hx
        have hJ1 : ∀ m, childrenD g m ≠ [] →
            (fun m => if m = n then leafUnion S (childrenD g n) else S m) m ⊆
            leafUnion
              (fun m => if m = n then leafUnion S (childrenD g n) else S m)
              (childrenD g m) := by
          intro m hm
          by_cases hmn : m = n
          · subst hmn
            simp only [if_pos rfl]
            exact leafUnion_mono S _ hgrow1 (childrenD g m) ∅ ∅ (fun x hx => hx)
          · simp only [if_neg hmn]
            exact subset_trans (hJ m hm)
              (leafUnion_mono S _ hgrow1 (childrenD g m) ∅ ∅ (fun x hx => hx))
        have hUB1 : ∀ m,
            (fun m => if m = n then leafUnion S (childrenD g n) else S m) m
              ⊆ B := by
          intro m
          by_cases hm : m = n
          · simp only [if_pos hm]
            exact leafUnion_subset S B (childrenD g n) ∅
              (Finset.empty_subset B) (fun c _ => hUB c)
          · simp only [if_neg hm]
            exact hUB m
        obtain ⟨h1, h2, h3, h4, h5⟩ := ih _ true hJ1 hUB1
        rw [he]
        refine ⟨?_, h2, h3, ?_, ?_⟩
        · exact fun m => subset_trans (hgrow1 m) (h1 m)
        · intro m hm
          have hmn : m ≠ n := fun hmn => hk (hmn ▸ hm)
          rw [h4 m hm]
          simp only [if_neg hmn]
        · intro _
          refine Or.inr ⟨n, by simp, ?_⟩
          have hsub : S n ⊆ leafUnion S (childrenD g n) := hJ n hk
          have hss : S n ⊂ leafUnion S (childrenD g n) :=
            (Finset.ssubset_iff_subset_ne).mpr ⟨hsub, fun he2 => hg.2 he2.symm⟩
          have hlt := Finset.card_lt_card hss
          have hle : (leafUnion S (childrenD g n)).card ≤
              ((leafPassAux g
                (fun m => if m = n then leafUnion S (childrenD g n) else S m)
                true rest).1 n).card := by
            refine Finset.card_le_card ?_
            have := h1 n
            simpa using this
          omega
      · have he : leafPassAux g S ch (n :: rest) = leafPassAux g S ch rest := by
          simp only [leafPassAux]
          rw [if_neg hk, if_neg hg]
        rw [he]
        obtain ⟨h1, h2, h3, h4, h5⟩ := ih S ch hJ hUB
        refine ⟨h1, h2, h3, h4, ?_⟩
        intro hch
        rcases h5 hch with h | ⟨x, hx, hxc⟩
        · exact Or.inl h
        · exact Or.inr ⟨x, by simp [hx], hxc⟩

/-- Fuel sufficiency of `leafLoop`: once `fuel` covers the headroom between
the current total size and its ceiling, the loop reaches a fix-point. -/
theorem leafLoop_total (g : Graph) (B : Finset String) :
    ∀ (fuel : Nat) (S : String → Finset String),
    (∀ n, childrenD g n ≠ [] → S n ⊆ leafUnion S (childrenD g n)) →
    (∀ n, S n ⊆ B) →
    g.nodes_in_order.length * B.card + 1 ≤
      (g.nodes_in_order.map (fun n => (S n).card)).sum + fuel →
    ∃ S', leafLoop g fuel S = some S' ∧ (∀ m, S m ⊆ S' m) ∧
      (∀ n, childrenD g n = [] → S' n = S n) ∧ (∀ n, S' n ⊆ B) := by
  intro fuel
  induction fuel with
  | zero =>
    intro S hJ hUB hcap
    exfalso
    have := mapsum_le_mul g.nodes_in_order (fun n => (S n).card) B.card
      (fun n _ => Finset.card_le_card (hUB n))
    omega
  | succ fuel ih =>
    intro S hJ hUB hcap
    obtain ⟨h1, h2, h3, h4, h5⟩ :=
      leafPassAux_spec g B g.nodes_in_order.reverse S false hJ hUB
    rcases hp : leafPassAux g S false g.nodes_in_order.reverse with ⟨S1, b⟩
    rw [hp] at h1 h2 h3 h4 h5
    cases b with
    | false =>
      refine ⟨S1, ?_, h1, h4, h3⟩
      simp only [leafLoop]
      rw [hp]
    | true =>
      obtain h | ⟨x, hx, hxc⟩ := h5 rfl
      · cases h
      · have hxN : x ∈ g.nodes_in_order := List.mem_reverse.mp hx
        have hstrict := sumcard_lt g.nodes_in_order S S1 h1 x hxN hxc
        obtain ⟨S', hloop, hg2, hc2, hub2⟩ := ih S1 h2 h3 (by omega)
        refine ⟨S', ?_, ?_, ?_, hub2⟩
        · simp only [leafLoop]
          rw [hp]
          exact hloop
        · exact fun m => subset_trans (h1 m) (hg2 m)
        · intro m hm
          rw [hc2 m hm]
          exact h4 m hm

/-- `compute_leaf_sets` succeeds on the real leaf list, keeps every leaf's
singleton, and returns a fix-point of the guarded pass. -/
theorem compute_leaf_sets_total (g : Graph) :
    ∃ LS, compute_leaf_sets g (find_leaves g) = some LS ∧
      (∀ n, childrenD g n = [] → n ∈ g.nodes_in_order → LS n = {n}) ∧
      leafPassAux g LS false g.nodes_in_order.reverse = (LS, false) ∧
      (∀ n, LS n ⊆ (find_leaves g).toFinset) := by
  have hall : (find_leaves g).all
      (fun lf => decide (lf ∈ g.nodes_in_order)) = true := by
    rw [List.all_eq_true]
    intro lf hlf
    exact decide_eq_true (List.mem_filter.mp hlf).1
  have hs0 : ∀ m,
      ((find_leaves g).foldl
        (fun S lf => fun x => if x = lf then S x ∪ {lf} else S x)
        (fun _ => (∅ : Finset String))) m =
      if m ∈ find_leaves g then {m} else ∅ := by
    intro m
    rw [s0_spec]
    by_cases hm : m ∈ find_leaves g
    · simp [hm]
    · simp [hm]
  have hJ0 : ∀ n, childrenD g n ≠ [] →
      ((find_leaves g).foldl
        (fun S lf => fun x => if x = lf then S x ∪ {lf} else S x)
        (fun _ => (∅ : Finset String))) n ⊆
      leafUnion ((find_leaves g).foldl
        (fun S lf => fun x => if x = lf then S x ∪ {lf} else S x)
        (fun _ => (∅ : Finset String))) (childrenD g n) := by
    intro n hn
    rw [hs0 n]
    have hnl : n ∉ find_leaves g := fun hin => hn
      (by simpa using (List.mem_filter.mp hin).2)
    rw [if_neg hnl]
    exact Finset.empty_subset _
  have hUB0 : ∀ n,
      ((find_leaves g).foldl
        (fun S lf => fun x => if x = lf then S x ∪ {lf} else S x)
        (fun _ => (∅ : Finset String))) n ⊆ (find_leaves g).toFinset := by
    intro n
    rw [hs0 n]
    by_cases hn : n ∈ find_leaves g
    · rw [if_pos hn]
      simp [hn]
    · rw [if_neg hn]
      exact Finset.empty_subset _
  have hcap : g.nodes_in_order.length * (find_leaves g).toFinset.card + 1 ≤
      (g.nodes_in_order.map (fun n =>
        (((find_leaves g).foldl
          (fun S lf => fun x => if x = lf then S x ∪ {lf} else S x)
          (fun _ => (∅ : Finset String))) n).card)).sum +
      (g.nodes_in_order.length * (find_leaves g).length + 2) := by
    have h1 : (find_leaves g).toFinset.card ≤ (find_leaves g).length :=
      List.toFinset_card_le _
    have h2 : g.nodes_in_order.length * (find_leaves g).toFinset.card ≤
        g.nodes_in_order.length * (find_leaves g).length :=
      Nat.mul_le_mul (Nat.le_refl _) h1
    have h3 := Nat.add_le_add_right h2 1
    exact le_trans h3 (le_trans (Nat.le_succ _) (Nat.le_add_left _ _))
  obtain ⟨S', hloop, hgrow, hcp, hub⟩ :=
    leafLoop_total g (find_leaves g).toFinset
    (g.nodes_in_order.length * (find_leaves g).length + 2) _ hJ0 hUB0 hcap
  refine ⟨S', ?_, ?_, leafLoop_fix g _ _ S' hloop, hub⟩
  · simp only [compute_leaf_sets]
    rw [if_pos hall]
    exact hloop
  · intro n hk hnN
    have hnl : n ∈ find_leaves g :=
      List.mem_filter.mpr ⟨hnN, by simpa using hk⟩
    rw [hcp n hk, hs0 n, if_pos hnl]

/-- At the fix-point of the guarded pass on an acyclic graph, every node's
leaf set is non-empty (topological induction: a leaf keeps its singleton, a
branching node absorbs a non-empty child union). -/
theorem leafsets_nonempty (g : Graph) (hwf : GraphWF g) (f : String → Nat)
    (ht : IsTopo g f) (LS : String → Finset String)
    (hstable : leafPassAux g LS false g.nodes_in_order.reverse = (LS, false))
    (hleafval : ∀ n, childrenD g n = [] → n ∈ g.nodes_in_order → LS n = {n}) :
    ∀ n ∈ g.nodes_in_order, LS n ≠ ∅ := by
  have hstab := (leafPassAux_nochange g LS false _ LS hstable).2.2
  have main : ∀ k n, n ∈ g.nodes_in_order → f n < k → LS n ≠ ∅ := by
    intro k
    induction k with
    | zero =>
      intro n _ h
      omega
    | succ k ih =>
      intro n hnN hfk
      by_cases hck : childrenD g n = []
      · rw [hleafval n hck hnN]
        simp
      · obtain ⟨c, hc⟩ := List.exists_mem_of_ne_nil _ hck
        have hcN : c ∈ g.nodes_in_order := childrenD_subset_nodes g hwf n c hc
        have hfc : f c < f n := ht n c hc
        have hcne : LS c ≠ ∅ := ih c hcN (by omega)
        have hsub : LS c ⊆ leafUnion LS (childrenD g n) :=
          subset_leafUnion LS (childrenD g n) ∅ c hc
        have hune : leafUnion LS (childrenD g n) ≠ ∅ := by
          intro hu
          exact hcne (Finset.subset_empty.mp (hu ▸ hsub))
        rcases hstab n (List.mem_reverse.mpr hnN) hck with h | h
        · exact absurd h hune
        · rw [← h]
          exact hune
  intro n hn
  exact main (f n + 1) n hn (by omega)

/-! ## Shape of the questions and of the option-to-leaf-set index -/

theorem buildQOptions_spec (g : Graph) (nid : String) :
    ∀ (kids : List String) (o : HOption), o ∈ buildQOptions g nid kids →
    o.dst ∈ kids ∧ o.option_id = nid ++ "__TO__" ++ o.dst := by
  intro kids
  induction kids with
  | nil =>
    intro o ho
    cases ho
  | cons c rest ih =>
    intro o ho
    simp only [buildQOptions] at ho
    rcases List.mem_cons.mp ho with rfl | ho
    · exact ⟨by simp, rfl⟩
    · obtain ⟨h1, h2⟩ := ih o ho
      exact ⟨by simp [h1], h2⟩

theorem buildQuestionsAux_spec (g : Graph) :
    ∀ (L : List String) (qid : String) (q : HQuestion),
    (qid, q) ∈ buildQuestionsAux g L →
    q.node_id = qid ∧ q.options = buildQOptions g qid (childrenD g qid) := by
  intro L
  induction L with
  | nil =>
    intro qid q h
    cases h
  | cons nid rest ih =>
    intro qid q h
    simp only [buildQuestionsAux] at h
    split at h
    · exact ih qid q h
    · rcases List.mem_cons.mp h with heq | h
      · cases heq
        exact ⟨rfl, rfl⟩
      · exact ih qid q h

theorem foldl_aset_keeps (LS : String → Finset String) :
    ∀ (opts : List HOption) (otl : List (String × List String)) (k : String),
    (alookup otl k).isSome = true →
    (alookup (opts.foldl (fun acc o =>
      aset acc o.option_id (sortedIds (LS o.dst))) otl) k).isSome = true := by
  intro opts
  induction opts with
  | nil => exact fun otl k h => h
  | cons a rest ih =>
    intro otl k h
    simp only [List.foldl_cons]
    refine ih _ k ?_
    by_cases hk : k = a.option_id
    · subst hk
      rw [alookup_aset_self]
      rfl
    · rw [alookup_aset_ne _ _ _ _ hk]
      exact h

theorem foldl_aset_writes (LS : String → Finset String) :
    ∀ (opts : List HOption) (otl : List (String × List String))
    (o : HOption), o ∈ opts →
    (alookup (opts.foldl (fun acc o =>
      aset acc o.option_id (sortedIds (LS o.dst))) otl) o.option_id).isSome
      = true := by
  intro opts
  induction opts with
  | nil =>
    intro otl o ho
    cases ho
  | cons a rest ih =>
    intro otl o ho
    simp only [List.foldl_cons]
    rcases List.mem_cons.mp ho with rfl | ho
    · refine foldl_aset_keeps LS rest _ o.option_id ?_
      rw [alookup_aset_self]
      rfl
    · exact ih _ o ho

theorem foldl_aset_nonempty (LS : String → Finset String) :
    ∀ (opts : List HOption), (∀ o ∈ opts, sortedIds (LS o.dst) ≠ []) →
    ∀ (otl : List (String × List String)),
    (∀ k ids, alookup otl k = some ids → ids ≠ []) →
    ∀ k ids, alookup (opts.foldl (fun acc o =>
      aset acc o.option_id (sortedIds (LS o.dst))) otl) k = some ids →
      ids ≠ [] := by
  intro opts
  induction opts with
  | nil => exact fun _ otl hP k ids h => hP k ids h
  | cons a rest ih =>
    intro hopts otl hP k ids h
    simp only [List.foldl_cons] at h
    refine ih (fun o ho => hopts o (by simp [ho])) _ ?_ k ids h
    intro k' ids' h'
    by_cases hk : k' = a.option_id
    · subst hk
      rw [alookup_aset_self] at h'
      cases h'
      exact hopts a (by simp)
    · rw [alookup_aset_ne _ _ _ _ hk] at h'
      exact hP k' ids' h'

/-- A key present in the threaded index stays present to the end of the
question loop. -/
theorem mmBuild_keeps (g : Graph) (LS : String → Finset String)
    (questions : List (String × HQuestion)) :
    ∀ (L : List String) (otl : List (String × List String)) (k : String),
    (alookup otl k).isSome = true →
    (alookup (mmBuild g LS questions otl L).2 k).isSome = true := by
  intro L
  induction L with
  | nil => exact fun otl k h => h
  | cons qid rest ih =>
    intro otl k h
    rcases hq : alookup questions qid with _ | q
    · have he : mmBuild g LS questions otl (qid :: rest) =
          mmBuild g LS questions otl rest := by
        simp only [mmBuild]
        rw [hq]
      rw [he]
      exact ih otl k h
    · rcases hmm : mmBuild g LS questions (q.options.foldl (fun acc o =>
          aset acc o.option_id (sortedIds (LS o.dst))) otl) rest with ⟨qs, otlF⟩
      have he : (mmBuild g LS questions otl (qid :: rest)).2 = otlF := by
        simp only [mmBuild, hq, hmm]
      rw [he]
      have hk1 := foldl_aset_keeps LS q.options otl k h
      have := ih _ k hk1
      rw [hmm] at this
      exact this

/-- Walking `make_model`'s question loop: the final index holds only
non-empty lists, and every option of every emitted question object has its
identifier present as a key, with its source-side data coming from one of
the question's options. -/
theorem mmBuild_spec (g : Graph) (LS : String → Finset String)
    (questions : List (String × HQuestion))
    (hvals : ∀ qid q, (qid, q) ∈ questions →
      ∀ o ∈ q.options, sortedIds (LS o.dst) ≠ []) :
    ∀ (L : List String) (otl : List (String × List String)),
    (∀ k ids, alookup otl k = some ids → ids ≠ []) →
    (∀ k ids, alookup (mmBuild g LS questions otl L).2 k = some ids →
      ids ≠ []) ∧
    (∀ qobj ∈ (mmBuild g LS questions otl L).1, ∃ qid q,
      (qid, q) ∈ questions ∧ qobj.nodeId = q.node_id ∧
      ∀ oo ∈ qobj.options,
        (∃ o ∈ q.options, oo.optionId = o.option_id ∧ oo.dstNodeId = o.dst) ∧
        (alookup (mmBuild g LS questions otl L).2 oo.optionId).isSome
          = true) := by
  intro L
  induction L with
  | nil =>
    intro otl hP
    refine ⟨hP, ?_⟩
    intro qobj h
    cases h
  | cons qid rest ih =>
    intro otl hP
    rcases hq : alookup questions qid with _ | q
    · have he : mmBuild g LS questions otl (qid :: rest) =
          mmBuild g LS questions otl rest := by
        simp only [mmBuild]
        rw [hq]
      rw [he]
      exact ih otl hP
    · have hqmem : (qid, q) ∈ questions := alookup_mem questions qid q hq
      have hP1 : ∀ k ids, alookup (q.options.foldl (fun acc o =>
          aset acc o.option_id (sortedIds (LS o.dst))) otl) k = some ids →
          ids ≠ [] :=
        foldl_aset_nonempty LS q.options
          (fun o ho => hvals qid q hqmem o ho) otl hP
      rcases hmm : mmBuild g LS questions (q.options.foldl (fun acc o =>
          aset acc o.option_id (sortedIds (LS o.dst))) otl) rest with ⟨qs, otlF⟩
      have he : mmBuild g LS questions otl (qid :: rest) =
          ({ nodeId := q.node_id, questionHtml := q.question_html,
             questionText := q.question_text,
             options := q.options.map (fun o =>
               { optionId := o.option_id, dstNodeId := o.dst,
                 titleHtml := o.title_html, contextHtml := o.context_html,
                 plainLabel := o.plain_label,
                 imageSrc := o.image_src }) } :: qs, otlF) := by
        simp only [mmBuild, hq, hmm]
      obtain ⟨ihP, ihQ⟩ := ih (q.options.foldl (fun acc o =>
        aset acc o.option_id (sortedIds (LS o.dst))) otl) hP1
      rw [hmm] at ihP ihQ
      rw [he]
      refine ⟨ihP, ?_⟩
      intro qobj hqobj
      rcases List.mem_cons.mp hqobj with rfl | hqobj
      · refine ⟨qid, q, hqmem, rfl, ?_⟩
        intro oo hoo
        have hoo2 : oo ∈ q.options.map (fun o =>
            ({ optionId := o.option_id, dstNodeId := o.dst,
               titleHtml := o.title_html, contextHtml := o.context_html,
               plainLabel := o.plain_label,
               imageSrc := o.image_src } : OptObj)) := hoo
        simp only [List.mem_map] at hoo2
        obtain ⟨o, ho, rfl⟩ := hoo2
        refine ⟨⟨o, ho, rfl, rfl⟩, ?_⟩
        show (alookup otlF o.option_id).isSome = true
        have hw := foldl_aset_writes LS q.options otl o ho
        have := mmBuild_keeps g LS questions rest _ o.option_id hw
        rw [hmm] at this
        exact this
      · exact ihQ qobj hqobj

/-- Membership in `sorted(list(s))` is membership in `s`. -/
theorem mem_sortedIds (s : Finset String) (x : String) :
    x ∈ sortedIds s ↔ x ∈ s := by
  obtain ⟨l, hl⟩ := Quot.exists_rep s.val
  have h2 : sortedIds s = insSort l := by
    unfold sortedIds
    rw [← hl]
  rw [h2, (insSort_perm l).mem_iff, Finset.mem_def, ← hl]
  exact Iff.rfl

/-- Where a value of the folded index can come from: it was already there,
or some option of the folded list wrote it. -/
theorem foldl_aset_lookup (LS : String → Finset String) :
    ∀ (opts : List HOption) (otl : List (String × List String))
    (k : String) (ids : List String),
    alookup (opts.foldl (fun acc o =>
      aset acc o.option_id (sortedIds (LS o.dst))) otl) k = some ids →
    alookup otl k = some ids ∨
    ∃ o ∈ opts, o.option_id = k ∧ ids = sortedIds (LS o.dst) := by
  intro opts
  induction opts with
  | nil => exact fun otl k ids h => Or.inl h
  | cons a rest ih =>
    intro otl k ids h
    simp only [List.foldl_cons] at h
    rcases ih _ k ids h with h2 | ⟨o, ho, hok, hov⟩
    · by_cases hk : k = a.option_id
      · subst hk
        rw [alookup_aset_self] at h2
        cases h2
        exact Or.inr ⟨a, by simp, rfl, rfl⟩
      · rw [alookup_aset_ne _ _ _ _ hk] at h2
        exact Or.inl h2
    · exact Or.inr ⟨o, by simp [ho], hok, hov⟩

/-- Every value of the final index was written by an option of one of the
emitted question objects (when none was there to begin with). -/
theorem mmBuild_lookup (g : Graph) (LS : String → Finset String)
    (questions : List (String × HQuestion)) :
    ∀ (L : List String) (otl : List (String × List String))
    (k : String) (ids : List String),
    alookup (mmBuild g LS questions otl L).2 k = some ids →
    alookup otl k = some ids ∨
    ∃ qobj ∈ (mmBuild g LS questions otl L).1, ∃ oo ∈ qobj.options,
      oo.optionId = k ∧ ids = sortedIds (LS oo.dstNodeId) := by
  intro L
  induction L with
  | nil => exact fun otl k ids h => Or.inl h
  | cons qid rest ih =>
    intro otl k ids h
    rcases hq : alookup questions qid with _ | q
    · have he : mmBuild g LS questions otl (qid :: rest) =
          mmBuild g LS questions otl rest := by
        simp only [mmBuild, hq]
      rw [he] at h ⊢
      exact ih otl k ids h
    · rcases hmm : mmBuild g LS questions (q.options.foldl (fun acc o =>
          aset acc o.option_id (sortedIds (LS o.dst))) otl) rest with ⟨qs, otlF⟩
      have he : mmBuild g LS questions otl (qid :: rest) =
          ({ nodeId := q.node_id, questionHtml := q.question_html,
             questionText := q.question_text,
             options := q.options.map (fun o =>
               { optionId := o.option_id, dstNodeId := o.dst,
                 titleHtml := o.title_html, contextHtml := o.context_html,
                 plainLabel := o.plain_label,
                 imageSrc := o.image_src }) } :: qs, otlF) := by
        simp only [mmBuild, hq, hmm]
      rw [he] at h ⊢
      have h2 := ih (q.options.foldl (fun acc o =>
        aset acc o.option_id (sortedIds (LS o.dst))) otl) k ids
      rw [hmm] at h2
      rcases h2 h with h3 | ⟨qobj, hqobj, oo, hoo, hok, hov⟩
      · rcases foldl_aset_lookup LS q.options otl k ids h3 with
          h4 | ⟨o, ho, hok, hov⟩
        · exact Or.inl h4
        · exact Or.inr ⟨_, List.mem_cons_self _ _,
            _, List.mem_map.mpr ⟨o, ho, rfl⟩, hok, hov⟩
      · exact Or.inr ⟨qobj, by simp [hqobj], oo, hoo, hok, hov⟩

theorem insertSorted_ne_nil (x : String) (l : List String) :
    insertSorted x l ≠ [] := by
  cases l with
  | nil => simp [insertSorted]
  | cons y rest =>
    simp only [insertSorted]
    split
    · simp
    · simp

theorem sortedIds_ne_nil (s : Finset String) (h : s ≠ ∅) :
    sortedIds s ≠ [] := by
  intro hnil
  apply h
  obtain ⟨l, hl⟩ := Quot.exists_rep s.val
  have h2 : insSort l = [] := by
    unfold sortedIds at hnil
    rw [← hl] at hnil
    exact hnil
  have h3 : l = [] := by
    cases l with
    | nil => rfl
    | cons x rest => exact absurd h2 (insertSorted_ne_nil x (insSort rest))
  have h4 : s.val = 0 := by
    rw [← hl, h3]
    rfl
  exact Finset.val_eq_zero.mp h4

theorem sortedIds_nodup (s : Finset String) : (sortedIds s).Nodup := by
  obtain ⟨l, hl⟩ := Quot.exists_rep s.val
  have hnd : l.Nodup := by
    have h1 := s.nodup
    rw [← hl] at h1
    exact h1
  have h2 : sortedIds s = insSort l := by
    unfold sortedIds
    rw [← hl]
  rw [h2]
  exact ((insSort_perm l).nodup_iff).mpr hnd

/-- `make_model` on a rooted graph with a computed leaf-set map: the
returned record, field by field. -/
theorem make_model_eq (g : Graph) (hroot : top_nodes g ≠ [])
    (LS : String → Finset String)
    (hls : compute_leaf_sets g (find_leaves g) = some LS) :
    make_model g = some
      { roots := top_nodes g,
        questions := (mmBuild g LS (build_questions g) [] g.nodes_in_order).1,
        leaves := (find_leaves g).map (fun lf =>
          { leafId := lf, leafHtml := nodeHtmlD g lf,
            leafText := orS (strip_html_for_plain (nodeHtmlD g lf))
              (fallback_label lf),
            depth := compute_depths g (top_nodes g) lf }),
        optionToLeafIds := (mmBuild g LS (build_questions g) []
          g.nodes_in_order).2,
        initialCandidates := sortedIds
          (if (top_nodes g).foldl (fun acc r => acc ∪ LS r) ∅ = ∅
           then (find_leaves g).toFinset
           else (top_nodes g).foldl (fun acc r => acc ∪ LS r) ∅) } := by
  rcases hr : top_nodes g with _ | ⟨r, R⟩
  · exact absurd hr hroot
  · simp only [make_model, hr, hls]

/-- C3's counterexample: node ids may themselves contain `__TO__`, so two
different options can share one option identifier; the later write wins and
the earlier option's identifier is no longer mapped to its own
destination's leaf set. -/
theorem claim_C3_counterexample :
    detect_cycle (parse_mermaid "A__TO__B --> C\nA --> B__TO__C") = none ∧
    top_nodes (parse_mermaid "A__TO__B --> C\nA --> B__TO__C") ≠ [] ∧
    ((make_model (parse_mermaid "A__TO__B --> C\nA --> B__TO__C")).bind
      (fun M => (compute_leaf_sets
          (parse_mermaid "A__TO__B --> C\nA --> B__TO__C")
          (find_leaves (parse_mermaid "A__TO__B --> C\nA --> B__TO__C"))).map
        (fun LS => decide (∀ q ∈ M.questions, ∀ o ∈ q.options,
          alookup M.optionToLeafIds o.optionId =
            some (sortedIds (LS o.dstNodeId)))))) = some false := by
  refine ⟨by decide, by decide, by decide⟩

/-- C3 (amended): on an acyclic rooted parsed graph, `make_model` succeeds
and every option identifier of every emitted question has the shape
`src__TO__dst` and is a key of the option-to-leaf-set index, mapped to a
non-empty list containing only leaf ids; the stored list is the sorted
fix-point leaf set of the destination of one of the produced options
bearing that identifier, and whenever all options bearing the identifier
share one destination (identifiers can collide, since node ids may contain
`__TO__`) it is the option's own destination's sorted leaf set. -/
theorem claim_C3_amended (text : String)
    (hacyc : ¬ HasCycle (parse_mermaid text))
    (hroot : top_nodes (parse_mermaid text) ≠ []) :
    ∃ M LS, make_model (parse_mermaid text) = some M ∧
      compute_leaf_sets (parse_mermaid text)
        (find_leaves (parse_mermaid text)) = some LS ∧
      ∀ q ∈ M.questions, ∀ o ∈ q.options,
        o.optionId = q.nodeId ++ "__TO__" ++ o.dstNodeId ∧
        ∃ ids, alookup M.optionToLeafIds o.optionId = some ids ∧
          ids ≠ [] ∧
          (∀ x ∈ ids, x ∈ find_leaves (parse_mermaid text)) ∧
          (∃ q2 ∈ M.questions, ∃ o2 ∈ q2.options, o2.optionId = o.optionId ∧
            ids = sortedIds (LS o2.dstNodeId)) ∧
          ((∀ q2 ∈ M.questions, ∀ o2 ∈ q2.options,
              o2.optionId = o.optionId → o2.dstNodeId = o.dstNodeId) →
            ids = sortedIds (LS o.dstNodeId)) := by
  have hwf := parse_mermaid_wf text
  obtain ⟨f, ht, hbnd⟩ := acyclic_topo_bound (parse_mermaid text) hwf hacyc
  obtain ⟨LS, hls, hleafval, hstable, hub⟩ :=
    compute_leaf_sets_total (parse_mermaid text)
  have hne := leafsets_nonempty (parse_mermaid text) hwf f ht LS hstable
    hleafval
  have hvals : ∀ qid q, (qid, q) ∈ build_questions (parse_mermaid text) →
      ∀ o ∈ q.options, sortedIds (LS o.dst) ≠ [] := by
    intro qid q hq o ho
    obtain ⟨hqid, hopts⟩ :=
      buildQuestionsAux_spec (parse_mermaid text) _ qid q hq
    rw [hopts] at ho
    obtain ⟨hdst, -⟩ := buildQOptions_spec (parse_mermaid text) qid _ o ho
    have hdN : o.dst ∈ (parse_mermaid text).nodes_in_order :=
      childrenD_subset_nodes (parse_mermaid text) hwf qid o.dst hdst
    exact sortedIds_ne_nil _ (hne o.dst hdN)
  obtain ⟨hP, hQ⟩ := mmBuild_spec (parse_mermaid text) LS
    (build_questions (parse_mermaid text)) hvals
    (parse_mermaid text).nodes_in_order []
    (by intro k ids h; cases h)
  refine ⟨_, LS, make_model_eq (parse_mermaid text) hroot LS hls, hls, ?_⟩
  intro qobj hqobj o ho
  obtain ⟨qid, q, hqmem, hnid, hoo⟩ := hQ qobj hqobj
  obtain ⟨⟨o2, ho2, hid, hdst⟩, hkey⟩ := hoo o ho
  constructor
  · obtain ⟨hqid, hopts⟩ :=
      buildQuestionsAux_spec (parse_mermaid text) _ qid q hqmem
    rw [hopts] at ho2
    obtain ⟨-, hid2⟩ := buildQOptions_spec (parse_mermaid text) qid _ o2 ho2
    rw [hid, hid2, hdst, hnid, hqid]
  · obtain ⟨ids, hids⟩ := Option.isSome_iff_exists.mp hkey
    rcases mmBuild_lookup (parse_mermaid text) LS
        (build_questions (parse_mermaid text))
        (parse_mermaid text).nodes_in_order [] o.optionId ids hids with
      h0 | ⟨qobj2, hqobj2, oo2, hoo2, hok2, hov2⟩
    · exact Option.noConfusion h0
    · refine ⟨ids, hids, hP o.optionId ids hids, ?_, ?_, ?_⟩
      · intro x hx
        rw [hov2, mem_sortedIds] at hx
        exact List.mem_toFinset.mp (hub oo2.dstNodeId hx)
      · exact ⟨qobj2, hqobj2, oo2, hoo2, hok2, hov2⟩
      · intro huniq
        have hd := huniq qobj2 hqobj2 oo2 hoo2 hok2
        rw [hov2, hd]

theorem claim_C3_amended_witness :
    ∃ M LS, make_model (parse_mermaid "A --> B") = some M ∧
      compute_leaf_sets (parse_mermaid "A --> B")
        (find_leaves (parse_mermaid "A --> B")) = some LS ∧
      ∀ q ∈ M.questions, ∀ o ∈ q.options,
        o.optionId = q.nodeId ++ "__TO__" ++ o.dstNodeId ∧
        ∃ ids, alookup M.optionToLeafIds o.optionId = some ids ∧
          ids ≠ [] ∧
          (∀ x ∈ ids, x ∈ find_leaves (parse_mermaid "A --> B")) ∧
          (∃ q2 ∈ M.questions, ∃ o2 ∈ q2.options, o2.optionId = o.optionId ∧
            ids = sortedIds (LS o2.dstNodeId)) ∧
          ((∀ q2 ∈ M.questions, ∀ o2 ∈ q2.options,
              o2.optionId = o.optionId → o2.dstNodeId = o.dstNodeId) →
            ids = sortedIds (LS o.dstNodeId)) :=
  claim_C3_amended "A --> B"
    (detect_none_imp_acyclic _ (by decide) (by decide)) (by decide)

/-- C4: on an acyclic rooted parsed graph, `initialCandidates` is the
sorted union of the leaf sets of the in-degree-zero nodes, and has no
duplicates. -/
theorem claim_C4_initial_candidates (text : String)
    (hacyc : ¬ HasCycle (parse_mermaid text))
    (hroot : top_nodes (parse_mermaid text) ≠ []) :
    ∃ M LS, make_model (parse_mermaid text) = some M ∧
      compute_leaf_sets (parse_mermaid text)
        (find_leaves (parse_mermaid text)) = some LS ∧
      M.initialCandidates = sortedIds ((top_nodes (parse_mermaid text)).foldl
        (fun acc r => acc ∪ LS r) ∅) ∧
      M.initialCandidates.Nodup := by
  have hwf := parse_mermaid_wf text
  obtain ⟨f, ht, hbnd⟩ := acyclic_topo_bound (parse_mermaid text) hwf hacyc
  obtain ⟨LS, hls, hleafval, hstable, hub⟩ :=
    compute_leaf_sets_total (parse_mermaid text)
  have hne := leafsets_nonempty (parse_mermaid text) hwf f ht LS hstable
    hleafval
  obtain ⟨r, hr⟩ : ∃ r, r ∈ top_nodes (parse_mermaid text) := by
    cases h : top_nodes (parse_mermaid text) with
    | nil => exact absurd h hroot
    | cons a L => exact ⟨a, h ▸ List.mem_cons_self a L⟩
  have hrN : r ∈ (parse_mermaid text).nodes_in_order :=
    (List.mem_filter.mp hr).1
  have hrne : LS r ≠ ∅ := hne r hrN
  have hsub : LS r ⊆ (top_nodes (parse_mermaid text)).foldl
      (fun acc x => acc ∪ LS x) ∅ :=
    subset_leafUnion LS (top_nodes (parse_mermaid text)) ∅ r hr
  have hall0 : (top_nodes (parse_mermaid text)).foldl
      (fun acc x => acc ∪ LS x) ∅ ≠ ∅ := by
    intro h0
    exact hrne (Finset.subset_empty.mp (h0 ▸ hsub))
  refine ⟨_, LS, make_model_eq (parse_mermaid text) hroot LS hls, hls,
    ?_, ?_⟩
  · show sortedIds _ = sortedIds _
    rw [if_neg hall0]
  · show (sortedIds _).Nodup
    exact sortedIds_nodup _

theorem claim_C4_initial_candidates_witness :
    ∃ M LS, make_model (parse_mermaid "A --> B") = some M ∧
      compute_leaf_sets (parse_mermaid "A --> B")
        (find_leaves (parse_mermaid "A --> B")) = some LS ∧
      M.initialCandidates = sortedIds
        ((top_nodes (parse_mermaid "A --> B")).foldl
          (fun acc r => acc ∪ LS r) ∅) ∧
      M.initialCandidates.Nodup :=
  claim_C4_initial_candidates "A --> B"
    (detect_none_imp_acyclic _ (by decide) (by decide)) (by decide)

end MermaidGuide
